import Mathlib

/-!
Verification of the TreeVector segmented-sequence storage engine.

The definitions below are a shallow embedding of the TypeScript sources:
`FenwickBase` (segment list + Fenwick tree + copy-on-write chunks), the
indexed `FenwickList` (`insertAt` / `insertManyAt`), the ordered
`FenwickOrderedList` (`insert` / `scan`), and `Table`.  JavaScript
numbers used as indexes are modelled as `Int`/`Nat` (every quantity
involved stays far below 2^31, where JS bitwise arithmetic and `Nat`
arithmetic agree); JS arrays become `List`s, the blob store an
association list, and the awaited (async) steps are sequentialized in
source order.  The source's `while`/`for` loops are written with an
explicit fuel argument chosen large enough that the fuel never runs out
on the loop's actual iteration count (each case is noted at the
definition); this keeps every definition kernel-reducible.
-/

namespace TreeVector

/-- JS `Math.max(0, Math.min(index, hi))` for a possibly-negative index. -/
def jsClamp (index : Int) (hi : Nat) : Nat :=
  (max 0 (min index (hi : Int))).toNat

/-- JS `arr.splice(pos, 0, v)` (insertion at a position already clamped
to `[0, arr.length]`; JS itself clamps larger positions to the length,
which `take`/`drop` reproduce). -/
def spliceIn (l : List α) (pos : Nat) (v : α) : List α :=
  l.take pos ++ v :: l.drop pos

/-- Stable insertion into a `le`-sorted list, after all `le`-smaller or
equal elements. -/
def insertLE (le : β → β → Bool) (x : β) : List β → List β
  | [] => [x]
  | y :: ys => if le y x then y :: insertLE le x ys else x :: y :: ys

/-- Stable insertion sort.  The source sorts with JS `Array.sort` under a
total comparator; the result is the unique sorted arrangement (all the
comparators used below are antisymmetric on the lists they sort), which
this computes. -/
def sortByLE (le : β → β → Bool) (l : List β) : List β :=
  l.foldr (insertLE le) []

/-- JS `i & -i` (least set bit of a 32-bit integer), by binary recursion
with fuel; `lowbitF n n` never exhausts the fuel since halving `n` at
least `n` times reaches zero. -/
def lowbitF : Nat → Nat → Nat
  | 0, _ => 0
  | _ + 1, 0 => 0
  | fuel + 1, n + 1 => if (n + 1) % 2 = 1 then 1 else 2 * lowbitF fuel ((n + 1) / 2)

def lowbit (n : Nat) : Nat := lowbitF n n

/-- The `let bit = 1; while (bit << 1 <= len) bit <<= 1` loop of
`findByIndex`: greatest power of two `≤ len` (and `1` for `len = 0`).
The bit doubles every iteration, so fuel `len` suffices. -/
def hibitF (len : Nat) : Nat → Nat → Nat
  | 0, bit => bit
  | fuel + 1, bit => if bit * 2 ≤ len then hibitF len fuel (bit * 2) else bit

def hibit (len : Nat) : Nat := hibitF len len 1

/-- Embedding of `FenwickBase.buildFenwick`: seed the array with the
segment counts, then add each cell into its parent
(`j = i + lowbit(i+1)`) when the parent is in range. -/
def buildStep (f : List Nat) (i : Nat) : List Nat :=
  let j := i + lowbit (i + 1)
  if j + 1 ≤ f.length then f.set j (f.getD j 0 + f.getD i 0) else f

def buildFenwick (counts : List Nat) : List Nat :=
  (List.range counts.length).foldl buildStep counts

/-- The `while (i <= length)` loop of `FenwickBase.addFenwick`; `i`
grows by `lowbit i ≥ 1` each iteration, so fuel `length + 1` suffices. -/
def addFenF (δ : Nat) : Nat → Nat → List Nat → List Nat
  | 0, _, f => f
  | fuel + 1, i, f =>
    if 1 ≤ i ∧ i ≤ f.length then
      addFenF δ fuel (i + lowbit i) (f.set (i - 1) (f.getD (i - 1) 0 + δ))
    else f

/-- Embedding of `FenwickBase.addFenwick(index, delta)` (the source's
`index < 0 || length = 0` guard is subsumed by the loop condition for
`Nat` indexes). -/
def addFenwick (f : List Nat) (index δ : Nat) : List Nat :=
  addFenF δ (f.length + 1) (index + 1) f

/-- The descending sequence of steps `bit, bit >> 1, ..., 1` traversed
by the `for (let step = bit; step > 0; step >>= 1)` loop; fuel `s`
suffices since halving reaches zero within `s` steps. -/
def halvings : Nat → Nat → List Nat
  | 0, _ => []
  | fuel + 1, s => if s = 0 then [] else s :: halvings fuel (s / 2)

/-- One iteration of the bit-descent loop of `FenwickBase.findByIndex`:
include the bin when the cumulative sum stays `≤ index`. -/
def descendStep (f : List Nat) (index : Nat) (acc : Nat × Nat) (step : Nat) : Nat × Nat :=
  let nxt := acc.1 + step
  if nxt ≤ f.length ∧ acc.2 + f.getD (nxt - 1) 0 ≤ index then
    (nxt, acc.2 + f.getD (nxt - 1) 0)
  else acc

def descend (f : List Nat) (index bit : Nat) : Nat × Nat :=
  (halvings bit bit).foldl (descendStep f index) (0, 0)

/-- Embedding of `FenwickBase.findByIndex` on the raw Fenwick array,
returning `(segIndex, localIndex)`; `nsegs` is `meta.segments.length`
(the source caps `segIndex` at `nsegs - 1` and is only called with a
non-empty segment list). -/
def findByIndexRaw (f : List Nat) (nsegs : Nat) (index : Nat) : Nat × Nat :=
  let r := descend f index (hibit f.length)
  (min r.1 (nsegs - 1), index - r.2)

/-- The `while (i > 0)` loop of `FenwickBase.prefixSum`; `i` shrinks by
`lowbit i ≥ 1` each iteration, so fuel `endExclusive` suffices. -/
def prefixF (f : List Nat) : Nat → Nat → Nat → Nat
  | 0, sum, _ => sum
  | fuel + 1, sum, i =>
    if 0 < i then prefixF f fuel (sum + f.getD (i - 1) 0) (i - lowbit i) else sum

/-- Embedding of `FenwickBase.prefixSum(endExclusive)`. -/
def prefixSumRaw (f : List Nat) (endExclusive : Nat) : Nat :=
  if endExclusive = 0 ∨ f.length = 0 then 0 else prefixF f endExclusive 0 endExclusive

end TreeVector

namespace TreeVector

/-- One segment: the `{count, min?, max?}` descriptor held in
`meta.segments` merged with its entry in the `segmentArrays` map (keyed
by object identity in the source, i.e. by position here) and its
membership in the `dirty` set.  `mn`/`mx` are only used by the ordered
variant (whose descriptors carry `min`/`max`). -/
structure Seg (α : Type) where
  count : Nat
  mn : Option α := none
  mx : Option α := none
  arr : Option (List α) := none
  dirty : Bool := false
deriving DecidableEq

instance : Inhabited (Seg α) := ⟨⟨0, none, none, none, false⟩⟩

/-- The pluggable blob store (`MemoryStore`): a key-value map with
deep-copy semantics (values are pure data here, so copying is implicit).
`failKeys` models keys on which `set` throws, for injecting the store
failures whose propagation the spec describes. -/
structure JStore (V : Type) where
  entries : List (String × V)
  failKeys : List String := []
deriving DecidableEq

def sget (store : JStore V) (k : String) : Option V :=
  (store.entries.find? (fun p => p.1 == k)).map (·.2)

def assocSet [BEq K] (l : List (K × V)) (k : K) (v : V) : List (K × V) :=
  if l.any (fun p => p.1 == k) then
    l.map (fun p => if p.1 == k then (k, v) else p)
  else l ++ [(k, v)]

/-- `store.set`, which throws (returns `none`) on an injected failure key. -/
def storeSet (store : JStore V) (k : String) (v : V) : Option (JStore V) :=
  if k ∈ store.failKeys then none
  else some { store with entries := assocSet store.entries k v }

/-- Chunk blobs of different element types share one JS store; `enc`/`dec`
translate between a chunk value (`T[][]`) and the store's value type. -/
structure Codec (α V : Type) where
  enc : List (List α) → V
  dec : V → Option (List (List α))

def idCodec (α : Type) : Codec α (List (List α)) := ⟨id, some⟩

/-- The in-memory state of a `FenwickBase` sequence: the meta fields
(`segmentCount`, `chunkCount`, `segments`, `chunks`) together with the
derived `fenwick` array and `totalCount`, and the private `chunkCache`.
`ordered` records which subclass the object belongs to (it selects the
overridden `ensureSegmentLoaded` / `splitSegment` behaviour). -/
structure FenState (α : Type) where
  ordered : Bool
  segmentCount : Nat
  chunkCount : Nat
  segments : List (Seg α)
  chunks : List (Option String)
  cache : List (Nat × List (List α))
  fenwick : List Nat
  totalCount : Nat
deriving DecidableEq

def FenState.seg (st : FenState α) (i : Nat) : Seg α := st.segments.getD i default

def FenState.updSeg (st : FenState α) (i : Nat) (f : Seg α → Seg α) : FenState α :=
  { st with segments := st.segments.set i (f (st.seg i)) }

/-- The segment's working array as `getOrCreateArraySync(seg, true)`
returns it: the in-memory array, or a fresh empty one. -/
def FenState.arrOf (st : FenState α) (i : Nat) : List α := (st.seg i).arr.getD []

/-- `getOrCreateArraySync(seg, true)` also records the fresh empty array
when none existed. -/
def FenState.touchArr (st : FenState α) (i : Nat) : FenState α :=
  if (st.seg i).arr.isSome then st else st.updSeg i (fun s => { s with arr := some [] })

/-- `chunkCount <= 0` is treated as one segment per chunk. -/
def effChunkSize (st : FenState α) : Nat := if 0 < st.chunkCount then st.chunkCount else 1

def cacheGet (cache : List (Nat × List (List α))) (c : Nat) : Option (List (List α)) :=
  (cache.find? (fun p => p.1 == c)).map (·.2)

/-- Pad a loaded chunk up to the chunk size with empty slots (the
`chunk.length < chunkSize` branch of `getOrLoadChunk`). -/
def normalizeChunk (chunkSize : Nat) (chunk : List (List α)) : List (List α) :=
  if chunk.length < chunkSize then (List.range chunkSize).map (fun i => chunk.getD i []) else chunk

/-- `FenwickBase.getOrLoadChunk`: consult the cache, else fetch the blob
at `chunks[cidx]` (missing key or missing/non-array blob means an empty
chunk), normalize, and cache it. -/
def getOrLoadChunk (cd : Codec α V) (store : JStore V) (st : FenState α) (cidx : Nat) :
    List (List α) × FenState α :=
  match cacheGet st.cache cidx with
  | some c => (c, st)
  | none =>
    let raw : List (List α) :=
      match st.chunks.getD cidx none with
      | none => []
      | some k =>
        match sget store k with
        | none => []
        | some v => (cd.dec v).getD []
    let chunk := normalizeChunk (effChunkSize st) raw
    (chunk, { st with cache := assocSet st.cache cidx chunk })

/-- `getOrCreateArrayForSegment(seg, true)`: the in-memory array if
present, else a fresh copy of the segment's slot in its (possibly just
loaded) chunk, recorded as the segment's working array. -/
def loadSegArr (cd : Codec α V) (store : JStore V) (st : FenState α) (i : Nat) :
    List α × FenState α :=
  match (st.seg i).arr with
  | some a => (a, st)
  | none =>
    let cs := effChunkSize st
    let lc := getOrLoadChunk cd store st (i / cs)
    let copy := lc.1.getD (i % cs) []
    (copy, lc.2.updSeg i (fun s => { s with arr := some copy }))

/-- `ensureSegmentLoaded` (with the ordered subclass's override, which
additionally refreshes `min`/`max` from a non-empty loaded array). -/
def ensureSegLoaded (cd : Codec α V) (store : JStore V) (st : FenState α) (i : Nat) :
    FenState α :=
  let la := loadSegArr cd store st i
  let st1 := la.2.updSeg i (fun s => { s with count := la.1.length })
  if st.ordered ∧ 0 < la.1.length then
    st1.updSeg i (fun s => { s with mn := la.1.head?, mx := la.1.getLast? })
  else st1

/-- `splitSegment` (both the base version and the ordered override):
split the working array at its midpoint, keep the left half in place,
insert the right half as a new segment, rebuild the Fenwick tree and
mark both halves dirty.  If either half would be empty the split is
suppressed. -/
def splitSegment (st0 : FenState α) (index : Nat) : FenState α :=
  let st := st0.touchArr index
  let arr := st.arrOf index
  let mid := arr.length / 2
  let left := arr.take mid
  let right := arr.drop mid
  if left.length = 0 ∨ right.length = 0 then st
  else
    let st1 := st.updSeg index (fun s =>
      if st.ordered then
        { s with count := left.length, arr := some left,
                 mn := left.head?, mx := left.getLast?, dirty := true }
      else { s with count := left.length, arr := some left, dirty := true })
    let newSeg : Seg α :=
      if st.ordered then
        { count := right.length, mn := right.head?, mx := right.getLast?,
          arr := some right, dirty := true }
      else { count := right.length, arr := some right, dirty := true }
    let segs := st1.segments.take (index + 1) ++ newSeg :: st1.segments.drop (index + 1)
    { st1 with segments := segs, fenwick := buildFenwick (segs.map (·.count)) }

/-- `createInitialSegment`: seed the very first segment with one value. -/
def createInitialSegment (st : FenState α) (seg : Seg α) (v : α) : FenState α :=
  let seg' := { seg with count := 1, arr := some [v], dirty := true }
  let segs := st.segments ++ [seg']
  { st with segments := segs, fenwick := buildFenwick (segs.map (·.count)), totalCount := 1 }

structure SegMeta (α : Type) where
  count : Nat
  mn : Option α
  mx : Option α
deriving DecidableEq

structure SeqMeta (α : Type) where
  segmentCount : Nat
  chunkCount : Nat
  segments : List (SegMeta α)
  chunks : List (Option String)
deriving DecidableEq

/-- `getMeta` (the live meta: current segment descriptors and chunk keys). -/
def getMetaF (st : FenState α) : SeqMeta α :=
  ⟨st.segmentCount, st.chunkCount, st.segments.map (fun s => ⟨s.count, s.mn, s.mx⟩), st.chunks⟩

/-- `setMeta`: adopt the descriptors (working arrays absent, nothing
dirty), recompute `totalCount` and rebuild the Fenwick tree. -/
def setMetaF (ordered : Bool) (m : SeqMeta α) : FenState α :=
  let segs : List (Seg α) := m.segments.map (fun d => { count := d.count, mn := d.mn, mx := d.mx })
  { ordered := ordered, segmentCount := m.segmentCount, chunkCount := m.chunkCount,
    segments := segs, chunks := m.chunks, cache := [],
    fenwick := buildFenwick (segs.map (·.count)),
    totalCount := (segs.map (·.count)).sum }

/-- A freshly constructed empty sequence with the given configuration. -/
def mkEmpty (α : Type) (ordered : Bool) (S C : Nat) : FenState α :=
  setMetaF ordered ⟨S, C, [], []⟩

end TreeVector

namespace TreeVector

/-- Embedding of `FenwickBase.get(index)`: `undefined` outside
`[0, totalCount)`, otherwise the located segment's value at the local
offset (the cache-fill side effects of loading are not observable
through the claims and are dropped). -/
def getOut (cd : Codec α V) (store : JStore V) (st : FenState α) (index : Int) : Option α :=
  if index < 0 ∨ (st.totalCount : Int) ≤ index then none
  else
    let loc := findByIndexRaw st.fenwick st.segments.length index.toNat
    ((loadSegArr cd store st loc.1).1).get? loc.2

/-- The slicing loop of `FenwickBase.range`, walking segments from
`segIndex` while values remain; `arrFor` is what
`getOrCreateArraySync(seg, true)` returns for each segment after the
parallel pre-load.  The loop advances one segment per iteration, so
fuel `nsegs` suffices. -/
def rangeWalk (arrFor : Nat → List α) (nsegs : Nat) : Nat → Nat → Nat → Nat → List α
  | 0, _, _, _ => []
  | fuel + 1, segIndex, localIndex, remaining =>
    if 0 < remaining ∧ segIndex < nsegs then
      let a := arrFor segIndex
      let tk := min remaining (a.length - localIndex)
      (a.drop localIndex).take tk ++ rangeWalk arrFor nsegs fuel (segIndex + 1) 0 (remaining - tk)
    else []

/-- Embedding of `FenwickBase.range(minIndex, maxIndex)` as a pure
output function: clamp to `[0, totalCount]`, locate the start, pre-load
the touched segments `[segIndex, endSeg]` in parallel, and concatenate
the slices.  Segments the pre-load does not touch contribute their
in-memory array (or a fresh empty one), exactly as
`getOrCreateArraySync(seg, true)` would. -/
def rangeOut (cd : Codec α V) (store : JStore V) (st : FenState α)
    (minIndex maxIndex : Int) : List α :=
  if st.totalCount = 0 then []
  else
    let a : Int := max 0 minIndex
    if maxIndex ≤ a then []
    else if (st.totalCount : Int) ≤ a then []
    else
      let b : Int := min maxIndex (st.totalCount : Int)
      let an := a.toNat
      let bn := b.toNat
      let loc := findByIndexRaw st.fenwick st.segments.length an
      let endSeg := (findByIndexRaw st.fenwick st.segments.length (bn - 1)).1
      let arrFor : Nat → List α := fun s =>
        if loc.1 ≤ s ∧ s ≤ endSeg then (loadSegArr cd store st s).1 else st.arrOf s
      rangeWalk arrFor st.segments.length st.segments.length loc.1 loc.2 (bn - an)

/-- Indexes of the segments in the `dirty` set.  The flag model iterates
them in segment order; the claims are insensitive to the JS set's
insertion order (each dirty segment overlays its own chunk slot and the
chunk commits touch pairwise distinct chunks and keys). -/
def dirtyIdx (st : FenState α) : List Nat :=
  (List.range st.segments.length).filter (fun i => (st.seg i).dirty)

/-- The `changedByChunk` grouping of `FenwickBase.flush`. -/
def flushGroups (st : FenState α) : List (Nat × List Nat) :=
  (dirtyIdx st).foldl
    (fun acc i =>
      let c := i / effChunkSize st
      if acc.any (fun p => p.1 == c) then
        acc.map (fun p => if p.1 == c then (p.1, p.2 ++ [i]) else p)
      else acc ++ [(c, [i])])
    []

structure FlushOut (α V : Type) where
  keys : List String
  ok : Bool
  st : FenState α
  store : JStore V

/-- One chunk commit inside `flush`: load the chunk, overlay the dirty
segments' working arrays, write the blob under a fresh key from `gen`,
record the new key and refresh the cache.  A store failure (`set`
throwing) leaves the key table, cache and written-keys untouched and
marks the whole flush as failing. -/
def flushChunkStep (cd : Codec α V) (gen : Nat → String) (r : FlushOut α V)
    (grp : Nat × List Nat) : FlushOut α V :=
  let cs := effChunkSize r.st
  let lc := getOrLoadChunk cd r.store r.st grp.1
  let base := (List.range cs).map (fun i => lc.1.getD i [])
  let newChunk := grp.2.foldl (fun nc i => nc.set (i % cs) (r.st.arrOf i)) base
  let key := gen grp.1
  match storeSet r.store key (cd.enc newChunk) with
  | none => { r with st := lc.2, ok := false }
  | some store' =>
    { keys := r.keys ++ [key], ok := r.ok,
      st := { lc.2 with
        chunks := (lc.2.chunks ++ List.replicate (grp.1 + 1 - lc.2.chunks.length) none).set
          grp.1 (some key),
        cache := assocSet lc.2.cache grp.1 newChunk },
      store := store' }

def clearDirty (st : FenState α) : FenState α :=
  { st with segments := st.segments.map (fun s => { s with dirty := false }) }

/-- Embedding of `FenwickBase.flush`: a no-op on an empty dirty set;
otherwise commit each affected chunk (the parallel commits touch
disjoint chunk indexes and fresh keys, so the sequential fold computes
the same final state) and clear the dirty set if every commit succeeded
(`ok`); a failed commit propagates (`ok = false`), leaving the dirty
set in place. -/
def flushF (cd : Codec α V) (gen : Nat → String) (st : FenState α) (store : JStore V) :
    FlushOut α V :=
  if dirtyIdx st = [] then ⟨[], true, st, store⟩
  else
    let r := (flushGroups st).foldl (flushChunkStep cd gen) ⟨[], true, st, store⟩
    if r.ok then { r with st := clearDirty r.st } else r

end TreeVector

namespace TreeVector

/-- Insert-batch pair of `FenwickList.insertManyAt`: target index,
value, original input position. -/
structure InsPair (α : Type) where
  idx : Int
  val : α
  ord : Nat
deriving DecidableEq

/-- Embedding of `sortAndRankInsertPairs`: sort by target index
ascending, then original order ascending (a total, antisymmetric
comparator, so the JS sort's result is this sorted arrangement). -/
def sortPairs (ps : List (InsPair α)) : List (InsPair α) :=
  sortByLE (fun a b => decide (a.idx < b.idx ∨ (a.idx = b.idx ∧ a.ord ≤ b.ord))) ps

/-- Insert-at semantics applied to an initially empty array (the
empty-structure fast path of `insertManyAt`): splice each pair in at
its clamped index. -/
def emptyBatchArr (pairs : List (InsPair α)) : List α :=
  pairs.foldl (fun acc p => spliceIn acc (jsClamp p.idx acc.length) p.val) []

/-- The `while (seg.count > segmentCount) splitSegment(segIndex)` loop.
Each successful split at least halves the segment's count, so for
`segmentCount ≥ 1` fuel equal to the starting count dominates the
iteration count and this equals the source loop; for `segmentCount = 0`
the source loop would not terminate (splitting a one-element segment is
suppressed while its count stays above 0). -/
def splitDown (segIndex : Nat) : FenState α → Nat → FenState α
  | st, 0 => st
  | st, fuel + 1 =>
    if (st.seg segIndex).count > st.segmentCount then
      splitDown segIndex (splitSegment st segIndex) fuel
    else st

/-- Per-segment merge loop of `insertManyAt` (the `newArr` construction):
`src` scans the existing array; each group of equal local positions is
emitted in rank order, followed by the pre-existing occupant of that
position.  One group (at least one pair) is consumed per iteration, so
fuel equal to the pair count suffices. -/
def mergeAuxF (arr : List α) : Nat → Nat → List (Nat × α) → List α
  | 0, src, _ => arr.drop src
  | _ + 1, src, [] => arr.drop src
  | fuel + 1, src, (l, v) :: rest =>
    let grp := (((l, v) :: rest).takeWhile (fun p => p.1 == l)).map (·.2)
    let rest' := ((l, v) :: rest).dropWhile (fun p => p.1 == l)
    let before := (arr.drop src).take (l - src)
    let src1 := src + (l - src)
    if src1 < arr.length ∧ src1 = l then
      before ++ grp ++ (arr.drop src1).take 1 ++ mergeAuxF arr fuel (src1 + 1) rest'
    else
      before ++ grp ++ mergeAuxF arr fuel src1 rest'

def mergeInserts (arr : List α) (ins : List (Nat × α)) : List α :=
  mergeAuxF arr ins.length 0 ins

def assocPush [BEq K] (l : List (K × List V)) (k : K) (v : V) : List (K × List V) :=
  if l.any (fun p => p.1 == k) then
    l.map (fun p => if p.1 == k then (p.1, p.2 ++ [v]) else p)
  else l ++ [(k, [v])]

/-- Embedding of `FenwickList.singleInsertAt` (the path taken by the
public `insertAt`, which delegates through `insertManyAt` with one
pair): clamp, then the empty / append / located-segment paths, splitting
on overflow and point-updating the Fenwick tree otherwise. -/
def singleInsertAt (cd : Codec α V) (store : JStore V) (st : FenState α)
    (index : Int) (value : α) : FenState α :=
  let clamped := jsClamp index st.totalCount
  if st.segments.length = 0 then createInitialSegment st { count := 1 } value
  else if clamped = st.totalCount then
    let segIndex := st.segments.length - 1
    let st1 := ensureSegLoaded cd store st segIndex
    let st2 := st1.updSeg segIndex (fun s =>
      { s with arr := some (st1.arrOf segIndex ++ [value]), count := s.count + 1, dirty := true })
    let st3 := { st2 with totalCount := st2.totalCount + 1 }
    if (st3.seg segIndex).count > st3.segmentCount then splitSegment st3 segIndex
    else { st3 with fenwick := addFenwick st3.fenwick segIndex 1 }
  else
    let loc := findByIndexRaw st.fenwick st.segments.length clamped
    let st1 := ensureSegLoaded cd store st loc.1
    let st2 := st1.updSeg loc.1 (fun s =>
      { s with arr := some (spliceIn (st1.arrOf loc.1) loc.2 value), count := s.count + 1 })
    let st3 := { st2 with totalCount := st2.totalCount + 1 }
    let st4 :=
      if (st3.seg loc.1).count > st3.segmentCount then splitSegment st3 loc.1
      else { st3 with fenwick := addFenwick st3.fenwick loc.1 1 }
    st4.updSeg loc.1 (fun s => { s with dirty := true })

/-- Embedding of the `rebuildIndices` call sites of `insertManyAt`.  The
`FenwickBase` revision this `FenwickList` ships with is not among the
sources (only callers and a counting test subclass are); Modelled from
the spec: "Rebuild Fenwick tree once at the end", a wholesale rebuild
from the current segment counts like the base `rebuildFenwick`. -/
def rebuildIndices (st : FenState α) : FenState α :=
  { st with fenwick := buildFenwick (st.segments.map (·.count)) }

/-- Embedding of `FenwickList.insertManyAt`.  The argument-length error
is modelled as `Except.error ()`.  The grouping loop's awaited loads,
the parallel prefetch (`getReadOnlyArrayForSegment`, absent from the
sources; Modelled from the spec: "Pre-load all touched segments in
parallel", i.e. the ordinary load-into-memory path) and the per-segment
merge loop run sequentially here, in the source's iteration order. -/
def insertManyAt (cd : Codec α V) (store : JStore V) (st : FenState α)
    (indexes : List Int) (values : List α) : Except Unit (FenState α) :=
  if indexes.length ≠ values.length then .error ()
  else
    match indexes, values with
    | [], _ => .ok st
    | [i], [v] => .ok (singleInsertAt cd store st i v)
    | _, _ =>
      let pairs : List (InsPair α) :=
        ((indexes.zip values).enum).map (fun q => ⟨q.2.1, q.2.2, q.1⟩)
      let sorted := sortPairs pairs
      if st.segments.length = 0 then
        let newArr := emptyBatchArr sorted
        let seg : Seg α := { count := newArr.length, arr := some newArr, dirty := true }
        let segs := st.segments ++ [seg]
        let st1 := { st with
          segments := segs, totalCount := newArr.length,
          fenwick := buildFenwick (segs.map (·.count)) }
        .ok (splitDown (st1.segments.length - 1) st1 newArr.length)
      else
        let mapped : List (Nat × α × Nat) :=
          sorted.enum.map (fun q => (jsClamp (q.2.idx - (q.1 : Int)) st.totalCount, q.2.val, q.1))
        let grouping := mapped.foldl
          (fun (acc : FenState α × List (Nat × List (Nat × α × Nat))) m =>
            if m.1 = st.totalCount then
              let si := acc.1.segments.length - 1
              let stL := ensureSegLoaded cd store acc.1 si
              (stL, assocPush acc.2 si ((stL.arrOf si).length, m.2.1, m.2.2))
            else
              let loc := findByIndexRaw acc.1.fenwick acc.1.segments.length m.1
              (acc.1, assocPush acc.2 loc.1 (loc.2, m.2.1, m.2.2)))
          (st, [])
        let st2 := grouping.2.foldl (fun s p => (loadSegArr cd store s p.1).2) grouping.1
        let st3 := grouping.2.foldl
          (fun s p =>
            let segIndex := p.1
            let s1 := ensureSegLoaded cd store s segIndex
            let arr := s1.arrOf segIndex
            let ins := sortByLE
              (fun a b => decide (a.1 < b.1 ∨ (a.1 = b.1 ∧ a.2.2 ≤ b.2.2))) p.2
            let newArr := mergeInserts arr (ins.map (fun t => (t.1, t.2.1)))
            let s2 := s1.updSeg segIndex (fun sg =>
              { sg with arr := some newArr, count := newArr.length, dirty := true })
            splitDown segIndex s2 newArr.length)
          st2
        .ok (rebuildIndices { st3 with totalCount := st3.totalCount + indexes.length })

/-- Embedding of the public `FenwickList.insertAt(index, value)` (which
calls `insertManyAt([index], [value])`, i.e. `singleInsertAt`). -/
def insertAtF (cd : Codec α V) (store : JStore V) (st : FenState α)
    (index : Int) (value : α) : FenState α :=
  singleInsertAt cd store st index value

end TreeVector

namespace TreeVector

/-- Embedding of `defaultCmp`: `a < b ? -1 : a > b ? 1 : 0`. -/
def cmpF [LinearOrder α] (a b : α) : Int :=
  if a < b then -1 else if b < a then 1 else 0

/-- Embedding of `defaultCmp` when its first argument is a
possibly-absent segment bound: JS comparisons against `undefined` are
false, so the comparator returns 0. -/
def cmpOV [LinearOrder α] (a : Option α) (b : α) : Int :=
  match a with
  | none => 0
  | some x => cmpF x b

/-- Embedding of `defaultCmp` when its second argument is a
possibly-absent segment bound. -/
def cmpVO [LinearOrder α] (a : α) (b : Option α) : Int :=
  match b with
  | none => 0
  | some y => cmpF a y

/-- Binary-search loop of `findFirstSegmentByMaxLowerBound`; the window
`hi - lo` at least halves each iteration, so fuel `segs.length + 1`
suffices. -/
def ffsAux [LinearOrder α] (segs : List (Seg α)) (v : α) : Nat → Nat → Nat → Nat
  | 0, lo, _ => lo
  | fuel + 1, lo, hi =>
    if lo < hi then
      let mid := (lo + hi) / 2
      if cmpOV (segs.getD mid default).mx v ≥ 0 then ffsAux segs v fuel lo mid
      else ffsAux segs v fuel (mid + 1) hi
    else lo

/-- Embedding of `FenwickOrderedList.findFirstSegmentByMaxLowerBound`:
the first segment whose `max ≥ v`, capped at the last segment. -/
def findFirstByMax [LinearOrder α] (st : FenState α) (v : α) : Nat :=
  min (ffsAux st.segments v (st.segments.length + 1) 0 st.segments.length)
    (st.segments.length - 1)

/-- Binary-search loop of `boundInArray` (`upper = false` gives
`lowerBoundInArray`); fuel as in `ffsAux`. -/
def boundAux [LinearOrder α] (arr : List α) (v : α) (upper : Bool) : Nat → Nat → Nat → Nat
  | 0, lo, _ => lo
  | fuel + 1, lo, hi =>
    if lo < hi then
      let mid := (lo + hi) / 2
      let c := cmpF (arr.getD mid v) v
      if (if upper then c ≤ 0 else c < 0) then boundAux arr v upper fuel (mid + 1) hi
      else boundAux arr v upper fuel lo mid
    else lo

def lowerBoundIn [LinearOrder α] (arr : List α) (v : α) : Nat :=
  boundAux arr v false (arr.length + 1) 0 arr.length

/-- Embedding of `FenwickOrderedList.insert(value)`: route to the first
segment whose `max ≥ value` (else the last), lower-bound splice inside
it, update the bounds, point-update the Fenwick tree, split on
overflow; returns the new state and the global insert position. -/
def oInsert [LinearOrder α] (cd : Codec α V) (store : JStore V) (st : FenState α)
    (v : α) : FenState α × Nat :=
  if st.segments.length = 0 then
    (createInitialSegment st { count := 1, mn := some v, mx := some v } v, 0)
  else
    let segIndex := findFirstByMax st v
    let st1 := ensureSegLoaded cd store st segIndex
    let arr := st1.arrOf segIndex
    let localIndex := lowerBoundIn arr v
    let insertPos := prefixSumRaw st1.fenwick segIndex + localIndex
    let st2 := st1.updSeg segIndex (fun s =>
      { s with arr := some (spliceIn arr localIndex v), count := s.count + 1 })
    let st3 := { st2 with totalCount := st2.totalCount + 1 }
    let st4 := st3.updSeg segIndex (fun s =>
      if cmpVO v s.mn < 0 then { s with mn := some v }
      else if cmpVO v s.mx > 0 then { s with mx := some v }
      else s)
    let st5 := { st4 with fenwick := addFenwick st4.fenwick segIndex 1 }
    let st6 := st5.updSeg segIndex (fun s => { s with dirty := true })
    if (st6.seg segIndex).count > st6.segmentCount then (splitSegment st6 segIndex, insertPos)
    else (st6, insertPos)

/-- Candidate-extension loop of `scan`: extend `j` while the segment's
`min < hi`; fuel `segs.length` suffices (one segment per iteration). -/
def scanExtend [LinearOrder α] (segs : List (Seg α)) (hi : α) : Nat → Nat → Nat
  | 0, j => j
  | fuel + 1, j =>
    if j < segs.length ∧ cmpOV (segs.getD j default).mn hi < 0 then
      scanExtend segs hi fuel (j + 1)
    else j

/-- Collection loop of `scan` over the candidate segments `[i, j)`,
slicing `[lowerBound(lo), lowerBound(hi))` in each and returning early
once the upper bound falls strictly inside a segment; fuel `j` bounds
the iteration count. -/
def scanCollect [LinearOrder α] (cd : Codec α V) (store : JStore V) (st : FenState α)
    (lo hi : α) (j : Nat) : Nat → Nat → List α
  | 0, _ => []
  | fuel + 1, i =>
    if i < j then
      let arr := (loadSegArr cd store st i).1
      let s := lowerBoundIn arr lo
      let e := lowerBoundIn arr hi
      let part := if s < e then (arr.drop s).take (e - s) else []
      if e < arr.length then part
      else part ++ scanCollect cd store st lo hi j fuel (i + 1)
    else []

/-- Embedding of `FenwickOrderedList.scan(min, max)` (half-open
`[min, max)`) as a pure output function, like `rangeOut`. -/
def scanOut [LinearOrder α] (cd : Codec α V) (store : JStore V) (st : FenState α)
    (lo hi : α) : List α :=
  if st.segments.length = 0 then []
  else
    let i := findFirstByMax st lo
    let j := scanExtend st.segments hi (st.segments.length) i
    scanCollect cd store st lo hi j (j + 1) i

end TreeVector

namespace TreeVector

/-- JS runtime values that can appear in an input row: `null`, numbers,
strings, and `other` standing for any value whose `typeof` is neither
`"number"` nor `"string"` (booleans, objects, ...). -/
inductive JSVal where
  | jnull
  | num (n : Int)
  | str (s : String)
  | other
deriving DecidableEq, Repr

/-- An input row: a JS object as an association list (a key's presence
models `hasOwnProperty`). -/
abbrev Row : Type := List (String × JSVal)

def rowGet (row : Row) (k : String) : Option JSVal :=
  (row.find? (fun p => p.1 == k)).map (·.2)

inductive VType where
  | vnum
  | vstr
deriving DecidableEq

/-- Meta snapshot of a table (`TableMeta` in the source): defaults, the
order column's key and meta, and the two typed buckets. -/
structure TableMeta where
  defaultSegmentCount : Nat
  defaultChunkCount : Nat
  orderKey : String
  orderMeta : SeqMeta Int
  numberCols : List (String × SeqMeta (Option JSVal))
  stringCols : List (String × SeqMeta (Option JSVal))
deriving DecidableEq

/-- Values stored by the table's and the columns' chunk blobs in the
one shared JS store, plus the committed table meta snapshot. -/
inductive TVal where
  | ochunk (c : List (List Int))
  | cchunk (c : List (List (Option JSVal)))
  | tmeta (m : TableMeta)
deriving DecidableEq

def cdOrd : Codec Int TVal :=
  ⟨TVal.ochunk, fun v => match v with | .ochunk c => some c | _ => none⟩

def cdCol : Codec (Option JSVal) TVal :=
  ⟨TVal.cchunk, fun v => match v with | .cchunk c => some c | _ => none⟩

/-- In-memory state of a `Table<number>`: the order key and its ordered
column (over numbers), the typed columns in creation order (an indexed
sequence of value-or-missing entries each), the construction defaults,
and the committed meta snapshot (set only by a successful flush or by
rehydration). -/
structure TableState where
  orderKey : String
  order : FenState Int
  cols : List (String × VType × FenState (Option JSVal))
  defaultSegmentCount : Nat
  defaultChunkCount : Nat
  committedMeta : Option TableMeta
deriving DecidableEq

/-- Errors of `Table.insert`.  `orderValueNotNumber` is a modelling
restriction: the source would feed a non-number, non-`undefined` order
value straight into the `Table<number>`'s ordered column, whose
comparator semantics on mixed JS types the claims never exercise; the
claims' theorems assume numeric order values. -/
inductive TblErr where
  | missingOrderKey
  | unsupportedColumnType (key : String)
  | orderValueNotNumber
  | lengthMismatch
deriving DecidableEq

/-- Step 1 of `Table.insert`: insert each row's order-key value into the
ordered column, in input order, collecting the returned global
positions. -/
def tblOrderInserts (store : JStore TVal) (ord : FenState Int) :
    List Row → String → Except TblErr (FenState Int × List Nat)
  | [], _ => .ok (ord, [])
  | row :: rest, okey =>
    match rowGet row okey with
    | none => .error .missingOrderKey
    | some (.num n) =>
      let r := oInsert cdOrd store ord n
      match tblOrderInserts store r.1 rest okey with
      | .error e => .error e
      | .ok (ord', idxs) => .ok (ord', r.2 :: idxs)
    | some _ => .error .orderValueNotNumber

/-- The value a row supplies for a column: a missing key or a `null`
value become the `undefined` sentinel. -/
def rowColVal (row : Row) (k : String) : Option JSVal :=
  match rowGet row k with
  | none => none
  | some .jnull => none
  | some v => some v

/-- Steps 2-3 of `Table.insert`: for every pre-existing typed column,
bulk-insert the rows' values (or the missing sentinel) at the computed
order positions via `insertManyAt`. -/
def tblPreExisting (store : JStore TVal) (rows : List Row) (idxs : List Nat) :
    List (String × VType × FenState (Option JSVal)) →
    Except TblErr (List (String × VType × FenState (Option JSVal)))
  | [] => .ok []
  | (k, vt, col) :: rest =>
    let vals := rows.map (fun row => rowColVal row k)
    match insertManyAt cdCol store col (idxs.map (fun i => (i : Int))) vals with
    | .error _ => .error .lengthMismatch
    | .ok col' =>
      match tblPreExisting store rows idxs rest with
      | .error e => .error e
      | .ok rest' => .ok ((k, vt, col') :: rest')

/-- Step 4a of `Table.insert` for one row: every column created earlier
in this batch receives the row's value (or the missing sentinel) at the
row's order position, via a single `insertAt`. -/
def tblPadCreated (store : JStore TVal) (row : Row) (idx : Nat) :
    List (String × VType × FenState (Option JSVal)) →
    List (String × VType × FenState (Option JSVal))
  | [] => []
  | (k, vt, col) :: rest =>
    (k, vt, insertAtF cdCol store col (idx : Int) (rowColVal row k)) ::
      tblPadCreated store row idx rest

/-- Step 4b of `Table.insert` for one row: walk the row's keys in
object order and create each candidate column on its first concrete
value (number or string decides the bucket; anything else is the
unsupported-column-type error), inserting that value at the row's order
position. -/
def tblCreateNew (store : JStore TVal) (idx : Nat) (okey : String)
    (candidates : List String) (S C : Nat) :
    List (String × JSVal) →
    List (String × VType × FenState (Option JSVal)) →
    Except TblErr (List (String × VType × FenState (Option JSVal)))
  | [], created => .ok created
  | (k, raw) :: restKeys, created =>
    if k == okey ∨ ¬(candidates.contains k) ∨ created.any (fun c => c.1 == k) then
      tblCreateNew store idx okey candidates S C restKeys created
    else
      match raw with
      | .jnull => tblCreateNew store idx okey candidates S C restKeys created
      | .num n =>
        let col := insertAtF cdCol store (mkEmpty (Option JSVal) false S C) (idx : Int)
          (some (.num n))
        tblCreateNew store idx okey candidates S C restKeys (created ++ [(k, .vnum, col)])
      | .str s =>
        let col := insertAtF cdCol store (mkEmpty (Option JSVal) false S C) (idx : Int)
          (some (.str s))
        tblCreateNew store idx okey candidates S C restKeys (created ++ [(k, .vstr, col)])
      | .other => .error (.unsupportedColumnType k)

/-- The per-row loop of step 4 of `Table.insert` (4a then 4b for each
row in input order). -/
def tblRowLoop (store : JStore TVal) (okey : String) (candidates : List String)
    (S C : Nat) :
    List (Row × Nat) →
    List (String × VType × FenState (Option JSVal)) →
    Except TblErr (List (String × VType × FenState (Option JSVal)))
  | [], created => .ok created
  | (row, idx) :: rest, created =>
    let created1 := tblPadCreated store row idx created
    match tblCreateNew store idx okey candidates S C row created1 with
    | .error e => .error e
    | .ok created2 => tblRowLoop store okey candidates S C rest created2

/-- Keys appearing in any row that are neither the order key nor a
pre-existing column (`candidateNewKeys`), in first-appearance order. -/
def tblCandidates (okey : String) (existing : List String) (rows : List Row) : List String :=
  rows.foldl
    (fun acc row =>
      row.foldl
        (fun acc2 p =>
          if p.1 == okey ∨ existing.contains p.1 ∨ acc2.contains p.1 then acc2
          else acc2 ++ [p.1])
        acc)
    []

/-- Embedding of `Table.insert(rows)`: order inserts first (in input
order), then the bulk pass over pre-existing columns, then the per-row
pass that pads already-created new columns and creates columns on their
first concrete value.  New columns are appended to the table's column
map in creation order, as `ensureTypedColumn` does. -/
def tableInsert (store : JStore TVal) (t : TableState) (rows : List Row) :
    Except TblErr TableState :=
  if rows.length = 0 then .ok t
  else
    match tblOrderInserts store t.order rows t.orderKey with
    | .error e => .error e
    | .ok (order', idxs) =>
      let pre := t.cols.filter (fun c => ¬(c.1 == t.orderKey))
      match tblPreExisting store rows idxs pre with
      | .error e => .error e
      | .ok pre' =>
        let candidates := tblCandidates t.orderKey (pre.map (·.1)) rows
        match tblRowLoop store t.orderKey candidates t.defaultSegmentCount
            t.defaultChunkCount (rows.zip idxs) [] with
        | .error e => .error e
        | .ok created =>
          .ok { t with order := order', cols := pre' ++ created }

/-- Embedding of `Table.get(index)`: assemble the non-order columns'
values at the position, omitting `undefined` ones (both the stored
missing sentinel and out-of-range reads). -/
def tableGet (store : JStore TVal) (t : TableState) (index : Int) : Row :=
  (t.cols.filter (fun c => ¬(c.1 == t.orderKey))).foldl
    (fun row c =>
      match getOut cdCol store c.2.2 index with
      | some (some jv) => row ++ [(c.1, jv)]
      | _ => row)
    []

/-- Embedding of `Table.range(offset, limit)`: slice the order column
(`limit` absent reads to the end), seed each row with the order-key
field, then fill in each non-order column's defined values at the
aligned absolute indexes. -/
def tableRange (store : JStore TVal) (t : TableState) (offset limit : Option Int) :
    List Row :=
  let a : Int := max 0 (offset.getD 0)
  let b : Int :=
    match limit with
    | some l => a + l
    | none => (t.order.totalCount : Int)
  let orderValues := rangeOut cdOrd store t.order a b
  let len := orderValues.length
  let colsNO := t.cols.filter (fun c => ¬(c.1 == t.orderKey))
  (List.range len).map (fun (i : Nat) =>
    colsNO.foldl
      (fun row c =>
        match getOut cdCol store c.2.2 (a + (i : Int)) with
        | some (some jv) => row ++ [(c.1, jv)]
        | _ => row)
      [(t.orderKey, JSVal.num (orderValues.getD i 0))])

/-- Embedding of `Table.buildMetaSnapshot`. -/
def buildMetaSnapshot (t : TableState) : TableMeta :=
  { defaultSegmentCount := t.defaultSegmentCount
    defaultChunkCount := t.defaultChunkCount
    orderKey := t.orderKey
    orderMeta := getMetaF t.order
    numberCols := (t.cols.filter
      (fun c => ¬(c.1 == t.orderKey) ∧ c.2.1 = VType.vnum)).map (fun c => (c.1, getMetaF c.2.2))
    stringCols := (t.cols.filter
      (fun c => ¬(c.1 == t.orderKey) ∧ c.2.1 = VType.vstr)).map (fun c => (c.1, getMetaF c.2.2)) }

/-- Embedding of `Table.getMeta()`: the committed snapshot, or a fresh
one built from live state if never committed. -/
def tableGetMeta (t : TableState) : TableMeta :=
  t.committedMeta.getD (buildMetaSnapshot t)

structure TblFlushOut where
  ok : Bool
  t : TableState
  store : JStore TVal

/-- Embedding of `Table.flush(metaKey)`: flush the order column and all
typed columns (the parallel flushes write to disjoint fresh keys
supplied by `gens`, column by column, so the sequential fold computes
the same final store; writes of columns that succeed land even when
another column's flush throws, while the rejection propagates); only
when every column flush succeeded is the snapshot built, written under
`metaKey`, and committed in memory. -/
def tableFlush (gens : Nat → Nat → String) (metaKey : String) (t : TableState)
    (store : JStore TVal) : TblFlushOut :=
  let r0 := flushF cdOrd (gens 0) t.order store
  let rc := (t.cols.enum).foldl
    (fun (acc : Bool × JStore TVal × List (String × VType × FenState (Option JSVal))) q =>
      let r := flushF cdCol (gens (q.1 + 1)) q.2.2.2 acc.2.1
      (acc.1 && r.ok, r.store, acc.2.2 ++ [(q.2.1, q.2.2.1, r.st)]))
    (r0.ok, r0.store, [])
  let t' := { t with order := r0.st, cols := rc.2.2 }
  if rc.1 then
    let snapshot := buildMetaSnapshot t'
    match storeSet rc.2.1 metaKey (.tmeta snapshot) with
    | none => ⟨false, t', rc.2.1⟩
    | some store' => ⟨true, { t' with committedMeta := some snapshot }, store'⟩
  else ⟨false, t', rc.2.1⟩

/-- The column-flush pass of `tableFlush` in isolation (order column
first, then the typed columns), reduced to its success flag and the
store it leaves behind; `tableFlush` commits the meta snapshot exactly
when this flag is true. -/
def tableColFlushes (gens : Nat → Nat → String) (t : TableState) (store : JStore TVal) :
    Bool × JStore TVal :=
  let r0 := flushF cdOrd (gens 0) t.order store
  let rc := (t.cols.enum).foldl
    (fun (acc : Bool × JStore TVal × List (String × VType × FenState (Option JSVal))) q =>
      let r := flushF cdCol (gens (q.1 + 1)) q.2.2.2 acc.2.1
      (acc.1 && r.ok, r.store, acc.2.2 ++ [(q.2.1, q.2.2.1, r.st)]))
    (r0.ok, r0.store, [])
  (rc.1, rc.2.1)

end TreeVector

namespace TreeVector

/-- Specification-side splice-insert: insert at the index clamped to
`[0, length]` (the spec's semantics of a single `insertAt`). -/
def specSpliceInsert (l : List α) (i : Int) (v : α) : List α :=
  spliceIn l (jsClamp i l.length) v

/-- A public call on an indexed sequence. -/
inductive SeqCall (α : Type) where
  | single (i : Int) (v : α)
  | many (idx : List Int) (vals : List α)

/-- Expands a call into its single inserts in input order (the claimed
semantics of `insertManyAt` with equal-length arrays). -/
def specExpand : SeqCall α → List (Int × α)
  | .single i v => [(i, v)]
  | .many idx vals => idx.zip vals

/-- Specification-side result of a call sequence: start from an empty
vector and splice every single insert in input order. -/
def specRunCalls (calls : List (SeqCall α)) : List α :=
  calls.foldl
    (fun acc c => (specExpand c).foldl (fun l p => specSpliceInsert l p.1 p.2) acc) []

/-- Implementation-side result of a call sequence on a fresh indexed
sequence. -/
def codeRunCalls (cd : Codec α V) (store : JStore V) (S C : Nat)
    (calls : List (SeqCall α)) : Except Unit (FenState α) :=
  calls.foldlM
    (fun st c =>
      match c with
      | .single i v => .ok (insertAtF cd store st i v)
      | .many idx vals => insertManyAt cd store st idx vals)
    (mkEmpty α false S C)

/-- An ordered sequence built from a list of `insert(v)` calls. -/
def oBuild [LinearOrder α] (cd : Codec α V) (store : JStore V) (S C : Nat)
    (vs : List α) : FenState α :=
  vs.foldl (fun st v => (oInsert cd store st v).1) (mkEmpty α true S C)

/-- The logical contents of a sequence: the concatenation of the
segments' working arrays. -/
def content (st : FenState α) : List α :=
  (st.segments.map (fun s => s.arr.getD [])).flatten

def countsOf (st : FenState α) : List Nat := st.segments.map (·.count)

/-- Well-formedness of one in-memory ordered segment: the working array
is present, counts it, is non-empty and sorted, and the bounds are its
first and last elements. -/
def segOk [LinearOrder α] (s : Seg α) : Prop :=
  ∃ a : List α, s.arr = some a ∧ s.count = a.length ∧ a ≠ [] ∧
    List.Sorted (· ≤ ·) a ∧ s.mn = a.head? ∧ s.mx = a.getLast?

/-- Derived-state well-formedness shared by the sequence invariants:
the Fenwick array has one positive entry per segment and `totalCount`
is the sum of the counts. -/
def fenOkLite (st : FenState α) : Prop :=
  st.fenwick.length = st.segments.length ∧
  (∀ i, i < st.fenwick.length → 1 ≤ st.fenwick.getD i 0) ∧
  st.totalCount = (countsOf st).sum

/-- Invariant of an in-memory ordered sequence built by `insert` calls. -/
def OInv [LinearOrder α] (st : FenState α) : Prop :=
  st.ordered = true ∧ (∀ s ∈ st.segments, segOk s) ∧
  List.Sorted (· ≤ ·) (content st) ∧ fenOkLite st

/-- The first concrete (non-null, present) value any row of the batch
carries for a column key. -/
def firstConcrete (rows : List Row) (k : String) : Option JSVal :=
  match rows with
  | [] => none
  | row :: rest =>
    match rowColVal row k with
    | none => firstConcrete rest k
    | some v => some v

/-- The state the ordered `insert(value)` reaches just before its split
check, on a well-formed segment `k` whose working array is `a`: the
value spliced in at the lower bound, the count and `totalCount` bumped,
the bounds refreshed, the segment marked dirty and the Fenwick tree
point-updated.  (`oInsert_eq` proves `oInsert` computes this.) -/
def oInsPre [LinearOrder α] (st : FenState α) (v : α) (k : Nat) (a : List α) : FenState α :=
  let lb := lowerBoundIn a v
  { st with
      segments := st.segments.set k
        { count := a.length + 1
          mn := if lb = 0 then some v else a.head?
          mx := if lb = a.length then some v else a.getLast?
          arr := some (spliceIn a lb v)
          dirty := true },
      totalCount := st.totalCount + 1,
      fenwick := addFenwick st.fenwick k 1 }

end TreeVector

namespace TreeVector

/-! Concrete fixtures used by the evaluation theorems and witnesses. -/

def cdI : Codec Int (List (List Int)) := idCodec Int

def emptyIntStore : JStore (List (List Int)) := ⟨[], []⟩

def emptyTStore : JStore TVal := ⟨[], []⟩

/-- A fresh `Table<number>` with order key `id` (the repository tests'
configuration). -/
def tblFresh (S C : Nat) : TableState := ⟨"id", mkEmpty Int true S C, [], S, C, none⟩

def c4Batches : TableState → Except TblErr TableState := fun t => do
  let a ← tableInsert emptyTStore t [[("id", .num 2), ("name", .str "bob")]]
  tableInsert emptyTStore a [[("id", .num 1), ("score", .num 10)]]

/-- Concrete chunk-key generators for the two flushes of the C8
scenario (the source draws random fresh keys; any concrete collision-free
choice stands in). -/
def c8Gen1 : Nat → String := fun c => "k" ++ toString c

def c8Gen2 : Nat → String := fun c => "m" ++ toString c

/-- First half of the C8 scenario: build an ordered sequence
(`segmentCount = 2`, `chunkCount = 8`) from `[10, 20, 30, 40]` (giving
segments `[10] [20] [30, 40]`) and flush it. -/
def c8First : FlushOut Int (List (List Int)) :=
  flushF cdI c8Gen1 (oBuild cdI emptyIntStore 2 8 [10, 20, 30, 40]) emptyIntStore

/-- Second half of the C8 scenario: insert `1` and then `2` (the second
insert splits segment 0, shifting the two flushed segments `[20]` and
`[30, 40]` from indexes 1, 2 to 2, 3 without marking them dirty) and
flush again. -/
def c8Second : FlushOut Int (List (List Int)) :=
  flushF cdI c8Gen2
    (oInsert cdI c8First.store (oInsert cdI c8First.store c8First.st 1).1 2).1
    c8First.store

/-- The rehydrated copy of the C8 scenario's final sequence: a fresh
sequence constructed with `setMeta(original.getMeta())` against the same
store. -/
def c8Rehydrated : FenState Int := setMetaF true (getMetaF c8Second.st)

/-- Key generator of the C6 witness. -/
def c6Gen : Nat → String := fun c => "w" ++ toString c

/-- Key generator of the C5 witness (one constant key; no freshness is
needed to exhibit a failing column flush). -/
def c5Gens : Nat → Nat → String := fun _ _ => "g"

/-- Store of the C5 witness: `set` throws on the key `g` every column
flush would write. -/
def c5Store : JStore TVal := ⟨[], ["g"]⟩

/-- Table of the C5 witness: one inserted row leaves the order and
`score` columns dirty, so `flush` must write. -/
def c5Table : TableState :=
  (tableInsert c5Store (tblFresh 2 2) [[("id", .num 1), ("score", .num 10)]]).toOption.getD
    (tblFresh 2 2)

/-- Table of the C10 witness: one row with one typed column. -/
def c10Table : TableState :=
  (tableInsert emptyTStore (tblFresh 8 8)
    [[("id", .num 1), ("name", .str "a")]]).toOption.getD (tblFresh 8 8)

end TreeVector

namespace TreeVector

/-! The claims. -/

/-- C1: the claim states that any mix of `insertAt` / `insertManyAt`
calls on an empty indexed sequence yields the same `range(0, N)` as
splicing the expanded single inserts in input order at
`clamp(i, 0, len)`.  The code violates this: after `insertAt(0, 10)`,
the batch `insertManyAt([0, 0], [1, 2])` produces `[1, 2, 10]`, while
input-order splices produce `[2, 1, 10]` (the second insert at index 0
must land in front of the first).  The rank transform
`oldIdx = clamp(idx - rank, 0, N)` maps both pairs to old index 0 and
emits them in input order ahead of the occupant.  (The repository's own
test suite expects a third, different order for equal-index batches, so
the code also contradicts its tests.) -/
theorem c1_insertManyAt_not_sequential_splices :
    (codeRunCalls cdI emptyIntStore 8 0
        [SeqCall.single 0 10, SeqCall.many [0, 0] [1, 2]]).toOption.map
      (fun st => rangeOut cdI emptyIntStore st 0 3) = some [1, 2, 10] ∧
    specRunCalls [SeqCall.single 0 10, SeqCall.many [0, 0] [1, 2]] = [2, 1, 10] ∧
    ([1, 2, 10] : List Int) ≠ [2, 1, 10] := by
  refine ⟨by decide, by decide, by decide⟩

/-- C7: the claim states every segment's count is at most `segmentCount`
after any public insert returns.  The code's
`while (seg.count > segmentCount) splitSegment(segIndex)` loops only
re-examine the left half left in place at `segIndex`; a right half
produced by a split is never re-split.  Bulk-inserting 8 values into an
empty sequence with `segmentCount = 3` leaves segment counts
`[2, 2, 4]`: the right half of the first split keeps count 4 > 3.  The
sequence contents stay correct (`range(0, 8)` is intact). -/
theorem c7_split_loop_misses_right_halves :
    ((insertManyAt cdI emptyIntStore (mkEmpty Int false 3 0)
        [0, 1, 2, 3, 4, 5, 6, 7] [0, 1, 2, 3, 4, 5, 6, 7]).toOption.map
      (fun st => (st.segments.map (·.count), rangeOut cdI emptyIntStore st 0 8)) =
        some ([2, 2, 4], [0, 1, 2, 3, 4, 5, 6, 7])) ∧
    ¬ (∀ c ∈ ([2, 2, 4] : List Nat), c ≤ 3) := by
  refine ⟨by decide, by decide⟩

/-- C4: the claim states every typed column's `total_count` equals the
order column's after `Table.insert` returns, with columns created
partway through a batch padded for the rows inserted before their
creation.  The code never backfills a newly created column: after
`insert([{id:2, name:"bob"}])` and then `insert([{id:1, score:10}])`,
the `score` column holds one entry while the order column holds two
(`score.total_count = 1 ≠ 2 = order.total_count`). -/
theorem c4_new_column_not_backfilled :
    (c4Batches (tblFresh 8 0)).toOption.map
      (fun t => (t.order.totalCount, t.cols.map (fun c => (c.1, c.2.2.totalCount)))) =
      some (2, [("name", 2), ("score", 1)]) ∧ (1 : Nat) ≠ 2 := by
  refine ⟨by decide, by decide⟩

/-- C8: the claim states the round-trip `setMeta(old.getMeta())` against
the same store reproduces `range(0, N)` bit-for-bit for every sequence.
The code violates this even for a fully flushed sequence: `flush`
persists only the segments in the `dirty` set at their current chunk
slots, while `splitSegment` shifts every segment to the right of the
split point by one slot without marking any of them dirty, so their
persisted slots go stale.  Ordered inserts `10, 20, 30, 40`
(`segmentCount = 2`, giving segments `[10] [20] [30,40]`), a flush,
inserts `1, 2` (the second splits segment 0, shifting `[20]` and
`[30,40]` right), and a second flush leave a clean sequence whose
`range(0, 6)` is `[1, 2, 10, 20, 30, 40]`, while its rehydrated copy
reads the stale chunk slots and returns `[1, 2, 10, 30, 40]`. -/
theorem c8_rehydration_loses_shifted_segments :
    dirtyIdx c8Second.st = [] ∧ c8Second.ok = true ∧
    c8Second.st.totalCount = 6 ∧
    rangeOut cdI c8Second.store c8Second.st 0 6 = [1, 2, 10, 20, 30, 40] ∧
    rangeOut cdI c8Second.store c8Rehydrated 0 6 = [1, 2, 10, 30, 40] ∧
    ([1, 2, 10, 30, 40] : List Int) ≠ [1, 2, 10, 20, 30, 40] := by
  refine ⟨by decide, by decide, by decide, by decide, by decide, by decide⟩

/-- C9: the claim states `Table.insert` raises the
unsupported-column-type error for a non-number, non-string concrete
value regardless of whether the column already exists.  The code checks
`typeof` only on the column-creation path: inserting
`{id: 2, score: ‹boolean›}` into a table whose `score` column already
exists (created by a first batch) succeeds, and the column's
`total_count` grows to 2. -/
theorem c9_preexisting_column_skips_type_check :
    ((tableInsert emptyTStore (tblFresh 8 8)
        [[("id", .num 1), ("score", .num 10)]]).toOption.map
      (fun t => (tableInsert emptyTStore t [[("id", .num 2), ("score", .other)]]).toOption.map
        (fun t2 => t2.cols.map (fun c => (c.1, c.2.2.totalCount))))) =
      some (some [("score", 2)]) := by decide

end TreeVector

namespace TreeVector

/-! Utility lemmas. -/

theorem list_set_getD_self (as : List β) (i : Nat) (d : β) (h : i < as.length) :
    as.set i (as.getD i d) = as := by
  induction as generalizing i with
  | nil => simp at h
  | cons a as ih =>
    cases i with
    | zero => simp [List.set, List.getD]
    | succ n =>
      simp only [List.set, List.getD_cons_succ]
      rw [ih]
      simpa using h

theorem flatten_set (as : List (List β)) (i : Nat) (x : List β) (h : i < as.length) :
    (as.set i x).flatten =
      (as.take i).flatten ++ x ++ ((as.drop (i + 1)).flatten) := by
  induction as generalizing i with
  | nil => simp at h
  | cons a as ih =>
    cases i with
    | zero => simp
    | succ n =>
      simp only [List.set, List.flatten_cons, List.take, List.drop]
      rw [ih n (by simpa using h)]
      simp

theorem flatten_getD_split (as : List (List β)) (i : Nat) (h : i < as.length) :
    as.flatten = (as.take i).flatten ++ as.getD i [] ++ ((as.drop (i + 1)).flatten) := by
  conv_lhs => rw [← list_set_getD_self as i [] h]
  exact flatten_set as i (as.getD i []) h

theorem sum_set_getD (cs : List Nat) (i δ : Nat) (h : i < cs.length) :
    (cs.set i (cs.getD i 0 + δ)).sum = cs.sum + δ := by
  induction cs generalizing i with
  | nil => simp at h
  | cons c cs ih =>
    cases i with
    | zero => simp [List.set, List.getD]; omega
    | succ n =>
      simp only [List.set, List.getD_cons_succ, List.sum_cons]
      rw [ih n (by simpa using h)]
      omega

/-! Fenwick array basics: the build and point-update preserve length and
only increase entries, so an all-positive Fenwick array stays positive. -/

theorem getD_set_self' (l : List β) (i : Nat) (x d : β) (h : i < l.length) :
    (l.set i x).getD i d = x := by
  rw [List.getD_eq_getElem?_getD, List.getElem?_set_self h]
  rfl

theorem getD_set_of_ne (l : List β) (i j : Nat) (x d : β) (h : i ≠ j) :
    (l.set i x).getD j d = l.getD j d := by
  rw [List.getD_eq_getElem?_getD, List.getElem?_set_ne h, ← List.getD_eq_getElem?_getD]

theorem buildStep_length (f : List Nat) (i : Nat) : (buildStep f i).length = f.length := by
  unfold buildStep
  dsimp only
  split <;> simp

theorem buildStep_le (f : List Nat) (i j : Nat) :
    f.getD j 0 ≤ (buildStep f i).getD j 0 := by
  unfold buildStep
  dsimp only
  split
  · rename_i hle
    by_cases hj : j = i + lowbit (i + 1)
    · subst hj
      rw [getD_set_self' _ _ _ _ (by omega)]
      omega
    · rw [getD_set_of_ne _ _ _ _ _ (by omega)]
  · omega

theorem buildFenwick_length (cs : List Nat) : (buildFenwick cs).length = cs.length := by
  unfold buildFenwick
  generalize List.range cs.length = idxs
  induction idxs generalizing cs with
  | nil => rfl
  | cons i idxs ih =>
    simp only [List.foldl_cons]
    rw [ih (buildStep cs i)]
    · exact buildStep_length cs i

theorem buildFenwick_le (cs : List Nat) (j : Nat) :
    cs.getD j 0 ≤ (buildFenwick cs).getD j 0 := by
  unfold buildFenwick
  generalize List.range cs.length = idxs
  induction idxs generalizing cs with
  | nil => exact le_refl _
  | cons i idxs ih =>
    simp only [List.foldl_cons]
    exact le_trans (buildStep_le cs i j) (ih (buildStep cs i))

theorem addFenF_length (δ : Nat) (fuel i : Nat) (f : List Nat) :
    (addFenF δ fuel i f).length = f.length := by
  induction fuel generalizing i f with
  | zero => rfl
  | succ fuel ih =>
    unfold addFenF
    split
    · rw [ih]
      simp
    · rfl

theorem addFenF_le (δ : Nat) (fuel i j : Nat) (f : List Nat) :
    f.getD j 0 ≤ (addFenF δ fuel i f).getD j 0 := by
  induction fuel generalizing i f with
  | zero => exact le_refl _
  | succ fuel ih =>
    unfold addFenF
    split
    · rename_i hcond
      refine le_trans ?_ (ih (i + lowbit i) (f.set (i - 1) (f.getD (i - 1) 0 + δ)))
      by_cases hj : j = i - 1
      · subst hj
        rw [getD_set_self' _ _ _ _ (by omega)]
        omega
      · rw [getD_set_of_ne _ _ _ _ _ (by omega)]
    · exact le_refl _

theorem addFenwick_length (f : List Nat) (index δ : Nat) :
    (addFenwick f index δ).length = f.length := addFenF_length δ (f.length + 1) (index + 1) f

theorem addFenwick_le (f : List Nat) (index δ j : Nat) :
    f.getD j 0 ≤ (addFenwick f index δ).getD j 0 := addFenF_le δ (f.length + 1) (index + 1) j f

end TreeVector

namespace TreeVector

/-! Locating index 0 and reading the whole range. -/

theorem mem_halvings_pos (fuel s x : Nat) (h : x ∈ halvings fuel s) : 0 < x := by
  induction fuel generalizing s with
  | zero => simp [halvings] at h
  | succ fuel ih =>
    unfold halvings at h
    split at h
    · simp at h
    · rename_i hs
      rcases List.mem_cons.mp h with h1 | h2
      · omega
      · exact ih _ h2

theorem descend_zero (f : List Nat) (bit : Nat)
    (hpos : ∀ i, i < f.length → 1 ≤ f.getD i 0) :
    descend f 0 bit = (0, 0) := by
  unfold descend
  have hsteps : ∀ x ∈ halvings bit bit, 0 < x := fun x hx => mem_halvings_pos bit bit x hx
  generalize halvings bit bit = steps at hsteps
  induction steps with
  | nil => rfl
  | cons s steps ih =>
    have hs : 0 < s := hsteps s (List.mem_cons_self s steps)
    simp only [List.foldl_cons]
    have hstep : descendStep f 0 (0, 0) s = (0, 0) := by
      unfold descendStep
      dsimp only
      split
      · rename_i hcond
        obtain ⟨h1, h2⟩ := hcond
        exfalso
        have h1' : s ≤ f.length := by simpa using h1
        have h2' : f.getD (s - 1) 0 ≤ 0 := by simpa using h2
        have h3 := hpos (s - 1) (by omega)
        omega
      · rfl
    rw [hstep]
    exact ih (fun x hx => hsteps x (List.mem_cons_of_mem s hx))

theorem findByIndexRaw_zero (f : List Nat) (nsegs : Nat)
    (hpos : ∀ i, i < f.length → 1 ≤ f.getD i 0) :
    findByIndexRaw f nsegs 0 = (0, 0) := by
  unfold findByIndexRaw
  rw [descend_zero f _ hpos]
  simp

theorem rangeWalk_flatten (arrFor : Nat → List α) (nsegs : Nat)
    (as : List (List α)) :
    ∀ (fuel k : Nat), nsegs ≤ k + fuel → as.length = nsegs - k →
      (∀ j, j < as.length → arrFor (k + j) = as.getD j []) →
      rangeWalk arrFor nsegs fuel k 0 ((as.map List.length).sum) = as.flatten := by
  induction as with
  | nil =>
    intro fuel k _ _ _
    cases fuel with
    | zero => rfl
    | succ fuel => simp [rangeWalk]
  | cons a as ih =>
    intro fuel k hf hlen harr
    have hk : k < nsegs := by
      simp only [List.length_cons] at hlen
      omega
    cases fuel with
    | zero => omega
    | succ fuel =>
      unfold rangeWalk
      by_cases hrem : 0 < (((a :: as).map List.length).sum)
      · rw [if_pos ⟨hrem, hk⟩]
        dsimp only
        have ha0 : arrFor (k + 0) = a := by
          have h2 := harr 0 (by simp)
          simpa using h2
        simp only [Nat.add_zero] at ha0
        rw [ha0]
        have hmin : min (((a :: as).map List.length).sum) (a.length - 0) = a.length := by
          simp only [List.map_cons, List.sum_cons, Nat.sub_zero]
          exact min_eq_right (by omega)
        rw [hmin]
        simp only [List.drop_zero, List.take_length]
        have hrec : ((a :: as).map List.length).sum - a.length = ((as.map List.length)).sum := by
          simp only [List.map_cons, List.sum_cons]
          omega
        rw [hrec]
        rw [ih fuel (k + 1) (by omega) (by simp only [List.length_cons] at hlen; omega)
          (fun j hj => by
            have h2 := harr (j + 1) (by simp only [List.length_cons]; omega)
            simpa [Nat.add_assoc, Nat.add_comm 1 j] using h2)]
        simp
      · rw [if_neg (by omega)]
        have hz : ∀ x ∈ (a :: as).map List.length, x = 0 :=
          List.sum_eq_zero_iff.mp (by omega)
        have hfl : ∀ x ∈ (a :: as), x = ([] : List α) := by
          intro x hx
          have := hz x.length (List.mem_map_of_mem List.length hx)
          exact List.length_eq_zero.mp this
        rw [List.flatten_eq_nil_iff.mpr hfl]

theorem getD_mem_of_lt (l : List β) (i : Nat) (d : β) (h : i < l.length) :
    l.getD i d ∈ l := by
  induction l generalizing i with
  | nil => simp at h
  | cons a as ih =>
    cases i with
    | zero => simp
    | succ n =>
      simp only [List.getD_cons_succ]
      exact List.mem_cons_of_mem a (ih n (by simpa using h))

theorem getD_map_list (f : β → List γ) (l : List β) (i : Nat) (h : i < l.length) (d : β) :
    (l.map f).getD i [] = f (l.getD i d) := by
  rw [List.getD_eq_getElem?_getD, List.getElem?_map, List.getD_eq_getElem?_getD]
  rw [List.getElem?_eq_getElem h]
  simp [List.getD_eq_getElem?_getD, List.getElem?_eq_getElem h]

/-- With every working array in memory and counting its segment's
`count`, and a positive Fenwick entry per segment, `range(0, N)` reads
back the full contents. -/
theorem rangeOut_eq_content (cd : Codec α V) (store : JStore V) (st : FenState α)
    (harr : ∀ s ∈ st.segments, ∃ a, s.arr = some a ∧ s.count = a.length)
    (hfen : fenOkLite st) :
    rangeOut cd store st 0 (st.totalCount : Int) = content st := by
  obtain ⟨hlen, hpos, htot⟩ := hfen
  by_cases h0 : st.totalCount = 0
  · unfold rangeOut
    rw [if_pos h0]
    have hz : ∀ x ∈ countsOf st, x = 0 := List.sum_eq_zero_iff.mp (by omega)
    unfold content
    rw [List.flatten_eq_nil_iff.mpr ?_]
    intro x hx
    rcases List.mem_map.mp hx with ⟨s, hs, rfl⟩
    rcases harr s hs with ⟨a, ha, hc⟩
    have : s.count = 0 := hz s.count (List.mem_map_of_mem _ hs)
    rw [ha]
    simp only [Option.getD_some]
    exact List.length_eq_zero.mp (by omega)
  · unfold rangeOut
    rw [if_neg h0]
    have hmax : max (0 : Int) 0 = 0 := by simp
    simp only [hmax]
    rw [if_neg (by omega), if_neg (by omega)]
    have hb : min (st.totalCount : Int) (st.totalCount : Int) = (st.totalCount : Int) :=
      min_self _
    simp only [hb]
    have han : (0 : Int).toNat = 0 := rfl
    have hbn : (st.totalCount : Int).toNat = st.totalCount := Int.toNat_natCast _
    simp only [han, hbn]
    rw [findByIndexRaw_zero st.fenwick st.segments.length hpos]
    have harrFor : ∀ j, j < (st.segments.map (fun s => s.arr.getD [])).length →
        (fun s => if (0, 0).1 ≤ s ∧ s ≤ (findByIndexRaw st.fenwick st.segments.length
            (st.totalCount - 1)).1 then (loadSegArr cd store st s).1 else st.arrOf s)
          (0 + j) = (st.segments.map (fun s => s.arr.getD [])).getD j [] := by
      intro j hj
      rw [List.length_map] at hj
      have hload : (loadSegArr cd store st j).1 = st.arrOf j := by
        unfold loadSegArr
        rcases harr (st.seg j) (getD_mem_of_lt st.segments j default hj) with ⟨a, ha, _⟩
        rw [ha]
        unfold FenState.arrOf
        rw [ha]
        rfl
      rw [getD_map_list _ _ j hj default]
      simp only [Nat.zero_add]
      split
      · rw [hload]
        rfl
      · rfl
    have hsum : st.totalCount - 0 = ((st.segments.map (fun s => s.arr.getD [])).map
        List.length).sum := by
      rw [Nat.sub_zero, htot]
      unfold countsOf
      rw [List.map_map]
      congr 1
      apply List.map_congr_left
      intro s hs
      rcases harr s hs with ⟨a, ha, hc⟩
      simp [ha, hc]
    rw [hsum]
    exact rangeWalk_flatten _ st.segments.length _ st.segments.length 0 (by omega)
      (by simp) harrFor

end TreeVector

namespace TreeVector

/-! Comparator facts and the binary searches. -/

theorem cmpF_lt_zero_iff [LinearOrder α] (a b : α) : cmpF a b < 0 ↔ a < b := by
  unfold cmpF
  split
  · simpa
  · split <;> simp_all

theorem cmpF_pos_iff [LinearOrder α] (a b : α) : 0 < cmpF a b ↔ b < a := by
  unfold cmpF
  split
  · rename_i h
    simp only [show ¬(0 : Int) < -1 by decide, false_iff]
    exact not_lt_of_lt h
  · split <;> simp_all

theorem cmpOV_some_nonneg_iff [LinearOrder α] (x v : α) :
    0 ≤ cmpOV (some x) v ↔ v ≤ x := by
  show 0 ≤ cmpF x v ↔ v ≤ x
  rw [← not_lt, ← not_lt, cmpF_lt_zero_iff]

theorem cmpVO_some_neg_iff [LinearOrder α] (v y : α) :
    cmpVO v (some y) < 0 ↔ v < y := by
  show cmpF v y < 0 ↔ v < y
  exact cmpF_lt_zero_iff v y

theorem cmpVO_some_pos_iff [LinearOrder α] (v y : α) :
    0 < cmpVO v (some y) ↔ y < v := by
  show 0 < cmpF v y ↔ y < v
  exact cmpF_pos_iff v y

theorem cmpOV_some_neg_iff [LinearOrder α] (x v : α) :
    cmpOV (some x) v < 0 ↔ x < v := by
  show cmpF x v < 0 ↔ x < v
  exact cmpF_lt_zero_iff x v

/-- Invariant proof of the segment-routing binary search: with a
monotone test, it returns the first index satisfying it (or the list
length). -/
theorem ffsAux_spec [LinearOrder α] (segs : List (Seg α)) (v : α)
    (hmono : ∀ i j, i ≤ j → j < segs.length →
      0 ≤ cmpOV (segs.getD i default).mx v → 0 ≤ cmpOV (segs.getD j default).mx v) :
    ∀ (fuel lo hi : Nat), hi - lo < 2 ^ fuel → lo ≤ hi → hi ≤ segs.length →
      (∀ i, i < lo → ¬ 0 ≤ cmpOV (segs.getD i default).mx v) →
      (∀ i, hi ≤ i → i < segs.length → 0 ≤ cmpOV (segs.getD i default).mx v) →
      (∀ i, i < ffsAux segs v fuel lo hi → ¬ 0 ≤ cmpOV (segs.getD i default).mx v) ∧
      (∀ i, ffsAux segs v fuel lo hi ≤ i → i < segs.length →
        0 ≤ cmpOV (segs.getD i default).mx v) ∧
      lo ≤ ffsAux segs v fuel lo hi ∧ ffsAux segs v fuel lo hi ≤ hi := by
  intro fuel
  induction fuel with
  | zero =>
    intro lo hi hwin hlh hhn hlow hhigh
    have : hi = lo := by omega
    subst this
    exact ⟨hlow, hhigh, le_refl _, le_refl _⟩
  | succ fuel ih =>
    intro lo hi hwin hlh hhn hlow hhigh
    unfold ffsAux
    by_cases hlt : lo < hi
    · rw [if_pos hlt]
      dsimp only
      split
      · rename_i hmid
        have h := ih lo ((lo + hi) / 2) (by omega) (by omega) (by omega) hlow
          (fun i hi1 hi2 => hmono ((lo + hi) / 2) i hi1 hi2 hmid)
        exact ⟨h.1, h.2.1, h.2.2.1, by omega⟩
      · rename_i hmid
        have hlow' : ∀ i, i < (lo + hi) / 2 + 1 → ¬ 0 ≤ cmpOV (segs.getD i default).mx v := by
          intro i hi1
          by_cases hcase : i < lo
          · exact hlow i hcase
          · intro hP
            exact hmid (hmono i ((lo + hi) / 2) (by omega) (by omega) hP)
        have h := ih ((lo + hi) / 2 + 1) hi (by omega) (by omega) hhn hlow' hhigh
        exact ⟨h.1, h.2.1, by omega, h.2.2.2⟩
    · rw [if_neg hlt]
      have : hi = lo := by omega
      subst this
      exact ⟨hlow, hhigh, le_refl _, le_refl _⟩

/-- Invariant proof of the in-segment lower-bound binary search. -/
theorem boundAux_spec [LinearOrder α] (arr : List α) (v : α)
    (hmono : ∀ i j, i ≤ j → j < arr.length →
      ¬ cmpF (arr.getD i v) v < 0 → ¬ cmpF (arr.getD j v) v < 0) :
    ∀ (fuel lo hi : Nat), hi - lo < 2 ^ fuel → lo ≤ hi → hi ≤ arr.length →
      (∀ i, i < lo → cmpF (arr.getD i v) v < 0) →
      (∀ i, hi ≤ i → i < arr.length → ¬ cmpF (arr.getD i v) v < 0) →
      (∀ i, i < boundAux arr v false fuel lo hi → cmpF (arr.getD i v) v < 0) ∧
      (∀ i, boundAux arr v false fuel lo hi ≤ i → i < arr.length →
        ¬ cmpF (arr.getD i v) v < 0) ∧
      lo ≤ boundAux arr v false fuel lo hi ∧ boundAux arr v false fuel lo hi ≤ hi := by
  intro fuel
  induction fuel with
  | zero =>
    intro lo hi hwin hlh hhn hlow hhigh
    have : hi = lo := by omega
    subst this
    exact ⟨hlow, hhigh, le_refl _, le_refl _⟩
  | succ fuel ih =>
    intro lo hi hwin hlh hhn hlow hhigh
    unfold boundAux
    simp only [Bool.false_eq_true, if_false]
    by_cases hlt : lo < hi
    · rw [if_pos hlt]
      split
      · rename_i hmid
        have hlow' : ∀ i, i < (lo + hi) / 2 + 1 → cmpF (arr.getD i v) v < 0 := by
          intro i hi1
          by_cases hcase : i < lo
          · exact hlow i hcase
          · by_contra hP
            exact hmono i ((lo + hi) / 2) (by omega) (by omega) hP (by simpa using hmid)
        have h := ih ((lo + hi) / 2 + 1) hi (by omega) (by omega) hhn hlow' hhigh
        exact ⟨h.1, h.2.1, by omega, h.2.2.2⟩
      · rename_i hmid
        have h := ih lo ((lo + hi) / 2) (by omega) (by omega) (by omega) hlow
          (fun i hi1 hi2 => hmono ((lo + hi) / 2) i hi1 hi2 (by simpa using hmid))
        exact ⟨h.1, h.2.1, h.2.2.1, by omega⟩
    · rw [if_neg hlt]
      have : hi = lo := by omega
      subst this
      exact ⟨hlow, hhigh, le_refl _, le_refl _⟩

end TreeVector

namespace TreeVector

/-! Sorted lists, lower bounds and ordered insertion. -/

theorem sorted_getD_mono [LinearOrder α] (arr : List α) (hs : List.Sorted (· ≤ ·) arr)
    (i j : Nat) (hij : i ≤ j) (hj : j < arr.length) (d : α) :
    arr.getD i d ≤ arr.getD j d := by
  rcases Nat.eq_or_lt_of_le hij with rfl | hlt
  · exact le_refl _
  · have hi : i < arr.length := lt_trans hlt hj
    rw [List.getD_eq_getElem?_getD, List.getElem?_eq_getElem hi]
    rw [List.getD_eq_getElem?_getD, List.getElem?_eq_getElem hj]
    simp only [Option.getD_some]
    exact List.pairwise_iff_get.mp hs ⟨i, hi⟩ ⟨j, hj⟩ hlt

theorem lowerBoundIn_spec [LinearOrder α] (arr : List α) (v : α)
    (hs : List.Sorted (· ≤ ·) arr) :
    (∀ j, j < lowerBoundIn arr v → arr.getD j v < v) ∧
    (∀ j, lowerBoundIn arr v ≤ j → j < arr.length → v ≤ arr.getD j v) ∧
    lowerBoundIn arr v ≤ arr.length := by
  have hmono : ∀ i j, i ≤ j → j < arr.length →
      ¬ cmpF (arr.getD i v) v < 0 → ¬ cmpF (arr.getD j v) v < 0 := by
    intro i j hij hj hi
    rw [cmpF_lt_zero_iff] at hi ⊢
    intro hlt
    exact hi (lt_of_le_of_lt (sorted_getD_mono arr hs i j hij hj v) hlt)
  have h := boundAux_spec arr v hmono (arr.length + 1) 0 arr.length
    (by have := Nat.lt_two_pow arr.length; omega)
    (Nat.zero_le _) (le_refl _) (by omega) (by omega)
  unfold lowerBoundIn
  refine ⟨?_, ?_, h.2.2.2⟩
  · intro j hj
    have := h.1 j hj
    rwa [cmpF_lt_zero_iff] at this
  · intro j h1 h2
    have := h.2.1 j h1 h2
    rw [cmpF_lt_zero_iff] at this
    exact not_lt.mp this

theorem orderedInsert_split [LinearOrder α] (A B : List α) (v : α)
    (hA : ∀ a ∈ A, a < v) (hB : ∀ b ∈ B, v ≤ b) :
    List.orderedInsert (· ≤ ·) v (A ++ B) = A ++ v :: B := by
  induction A with
  | nil =>
    cases B with
    | nil => rfl
    | cons b B =>
      simp only [List.nil_append, List.orderedInsert]
      rw [if_pos (hB b (by simp))]
  | cons a A ih =>
    simp only [List.cons_append, List.orderedInsert]
    rw [if_neg (not_le.mpr (hA a (by simp)))]
    rw [show A.append B = A ++ B from rfl]
    rw [ih (fun x hx => hA x (List.mem_cons_of_mem a hx))]


theorem splice_lowerBound_eq_orderedInsert [LinearOrder α] (arr : List α) (v : α)
    (hs : List.Sorted (· ≤ ·) arr) :
    spliceIn arr (lowerBoundIn arr v) v = List.orderedInsert (· ≤ ·) v arr := by
  obtain ⟨hlow, hhigh, hle⟩ := lowerBoundIn_spec arr v hs
  unfold spliceIn
  conv_rhs => rw [← List.take_append_drop (lowerBoundIn arr v) arr]
  rw [orderedInsert_split]
  · intro a ha
    rcases List.mem_take_iff_getElem.mp ha with ⟨i, hi, rfl⟩
    have h1 : i < lowerBoundIn arr v := by omega
    have := hlow i h1
    rwa [List.getD_eq_getElem?_getD, List.getElem?_eq_getElem (by omega),
      Option.getD_some] at this
  · intro b hb
    rcases List.mem_drop_iff_getElem.mp hb with ⟨i, hi, rfl⟩
    have := hhigh (lowerBoundIn arr v + i) (by omega) (by omega)
    rwa [List.getD_eq_getElem?_getD, List.getElem?_eq_getElem (by omega),
      Option.getD_some] at this

end TreeVector

namespace TreeVector

/-! Cross-segment ordering facts and content decomposition. -/

theorem getD_take_lt (as : List β) (n i : Nat) (d : β) (h : i < n) :
    (as.take n).getD i d = as.getD i d := by
  rw [List.getD_eq_getElem?_getD, List.getD_eq_getElem?_getD, List.getElem?_take_of_lt h]

theorem getD_drop_add (as : List β) (n i : Nat) (d : β) :
    (as.drop n).getD i d = as.getD (n + i) d := by
  rw [List.getD_eq_getElem?_getD, List.getD_eq_getElem?_getD, List.getElem?_drop]

/-- Elements of an earlier list in a sorted flatten are bounded by
elements of any later list. -/
theorem sorted_flatten_cross [LinearOrder α] (as : List (List α))
    (hs : List.Sorted (· ≤ ·) as.flatten) (i j : Nat) (hij : i < j) (hj : j < as.length)
    (x y : α) (hx : x ∈ as.getD i []) (hy : y ∈ as.getD j []) : x ≤ y := by
  have hsplit : as.flatten = (as.take (i + 1)).flatten ++ (as.drop (i + 1)).flatten := by
    rw [← List.flatten_append, List.take_append_drop]
  rw [hsplit] at hs
  rcases List.pairwise_append.mp hs with ⟨_, _, hcross⟩
  apply hcross
  · rw [List.mem_flatten]
    refine ⟨as.getD i [], ?_, hx⟩
    have hlen : i < (as.take (i + 1)).length := by
      rw [List.length_take]
      omega
    have := getD_mem_of_lt (as.take (i + 1)) i [] hlen
    rwa [getD_take_lt as (i + 1) i [] (by omega)] at this
  · rw [List.mem_flatten]
    refine ⟨as.getD j [], ?_, hy⟩
    have hlen : j - (i + 1) < (as.drop (i + 1)).length := by
      rw [List.length_drop]
      omega
    have := getD_mem_of_lt (as.drop (i + 1)) (j - (i + 1)) [] hlen
    rwa [getD_drop_add as (i + 1) (j - (i + 1)) [], show i + 1 + (j - (i + 1)) = j by omega]
      at this

/-- The array of segment `i`, as `content` sees it. -/
theorem content_getD (st : FenState α) (i : Nat) (h : i < st.segments.length) :
    (st.segments.map (fun s => s.arr.getD [])).getD i [] = (st.seg i).arr.getD [] := by
  rw [getD_map_list _ _ i h default]
  rfl

theorem content_updSeg (st : FenState α) (i : Nat) (f : Seg α → Seg α)
    (h : i < st.segments.length) :
    content (st.updSeg i f) =
      ((st.segments.map (fun s => s.arr.getD [])).take i).flatten ++
        (f (st.seg i)).arr.getD [] ++
        ((st.segments.map (fun s => s.arr.getD [])).drop (i + 1)).flatten := by
  unfold content FenState.updSeg
  dsimp only
  rw [List.map_set]
  rw [flatten_set _ i _ (by rw [List.length_map]; omega)]

theorem content_split (st : FenState α) (i : Nat) (h : i < st.segments.length) :
    content st =
      ((st.segments.map (fun s => s.arr.getD [])).take i).flatten ++
        (st.seg i).arr.getD [] ++
        ((st.segments.map (fun s => s.arr.getD [])).drop (i + 1)).flatten := by
  conv_lhs => rw [content, flatten_getD_split _ i (by rw [List.length_map]; omega)]
  rw [content_getD st i h]

end TreeVector

namespace TreeVector

theorem segments_decomp (st : FenState α) (i : Nat) (h : i < st.segments.length) :
    st.segments = st.segments.take i ++ st.seg i :: st.segments.drop (i + 1) := by
  conv_lhs => rw [← List.take_append_drop i st.segments]
  congr 1
  rw [List.drop_eq_getElem_cons h]
  congr 1
  unfold FenState.seg
  rw [List.getD_eq_getElem?_getD, List.getElem?_eq_getElem h, Option.getD_some]

theorem touchArr_id (st : FenState α) (i : Nat) (h : (st.seg i).arr.isSome) :
    st.touchArr i = st := by
  unfold FenState.touchArr
  rw [if_pos h]

theorem take_set_cons_drop (l : List β) (i : Nat) (x y : β) (h : i < l.length) :
    (l.set i x).take (i + 1) ++ y :: (l.set i x).drop (i + 1) =
      l.take i ++ x :: y :: l.drop (i + 1) := by
  induction l generalizing i with
  | nil => simp at h
  | cons a t ih =>
    cases i with
    | zero => simp
    | succ n =>
      simp only [List.set_cons_succ, List.take_succ_cons, List.drop_succ_cons,
        List.cons_append]
      rw [ih n (by simpa using h)]

/-- Shape of the state after a non-suppressed split of an ordered
segment. -/
theorem splitSegment_segments_ordered [LinearOrder α] (st : FenState α) (i : Nat) (a : List α)
    (hi : i < st.segments.length) (hord : st.ordered = true)
    (ha : (st.seg i).arr = some a) (hlen : 2 ≤ a.length) :
    (splitSegment st i).segments =
      st.segments.take i ++
        { st.seg i with
          count := (a.take (a.length / 2)).length,
          arr := some (a.take (a.length / 2)), mn := (a.take (a.length / 2)).head?,
          mx := (a.take (a.length / 2)).getLast?, dirty := true } ::
        ({ count := (a.drop (a.length / 2)).length, mn := (a.drop (a.length / 2)).head?,
           mx := (a.drop (a.length / 2)).getLast?, arr := some (a.drop (a.length / 2)),
           dirty := true } : Seg α) ::
        st.segments.drop (i + 1) ∧
    (splitSegment st i).fenwick = buildFenwick (countsOf (splitSegment st i)) ∧
    (splitSegment st i).ordered = st.ordered ∧
    (splitSegment st i).segmentCount = st.segmentCount ∧
    (splitSegment st i).chunkCount = st.chunkCount ∧
    (splitSegment st i).totalCount = st.totalCount ∧
    (splitSegment st i).chunks = st.chunks ∧
    (splitSegment st i).cache = st.cache := by
  have harr : st.arrOf i = a := by
    unfold FenState.arrOf
    rw [ha]
    rfl
  unfold splitSegment
  rw [touchArr_id st i (by rw [ha]; rfl)]
  dsimp only
  rw [harr]
  rw [if_neg (by
    simp only [List.length_take, List.length_drop]
    omega)]
  simp only [hord, if_true]
  unfold FenState.updSeg countsOf
  dsimp only
  rw [take_set_cons_drop st.segments i _ _ hi]
  exact ⟨rfl, rfl, hord, rfl, rfl, rfl, rfl, rfl⟩

end TreeVector

namespace TreeVector

theorem countsOf_pos [LinearOrder α] (st : FenState α)
    (hsegs : ∀ s ∈ st.segments, segOk s) :
    ∀ j, j < (countsOf st).length → 1 ≤ (countsOf st).getD j 0 := by
  intro j hj
  have hmem := getD_mem_of_lt (countsOf st) j 0 hj
  rcases List.mem_map.mp hmem with ⟨s, hs, heq⟩
  rcases hsegs s hs with ⟨a, _, hc, hne, _, _, _⟩
  rw [← heq, hc]
  cases a with
  | nil => exact absurd rfl hne
  | cons x xs => simp

theorem loadSegArr_of_loaded (cd : Codec α V) (store : JStore V) (st : FenState α)
    (i : Nat) (a : List α) (ha : (st.seg i).arr = some a) :
    loadSegArr cd store st i = (a, st) := by
  unfold loadSegArr
  rw [ha]

theorem updSeg_id (st : FenState α) (i : Nat) (f : Seg α → Seg α)
    (hi : i < st.segments.length) (hf : f (st.seg i) = st.seg i) :
    st.updSeg i f = st := by
  unfold FenState.updSeg
  rw [hf]
  unfold FenState.seg
  rw [list_set_getD_self st.segments i default hi]

theorem ensureSegLoaded_id (cd : Codec α V) (store : JStore V) (st : FenState α)
    (i : Nat) (a : List α) (hi : i < st.segments.length)
    (ha : (st.seg i).arr = some a) (hc : (st.seg i).count = a.length)
    (hbnd : st.ordered = true → 0 < a.length →
      (st.seg i).mn = a.head? ∧ (st.seg i).mx = a.getLast?) :
    ensureSegLoaded cd store st i = st := by
  unfold ensureSegLoaded
  rw [loadSegArr_of_loaded cd store st i a ha]
  dsimp only
  have h1 : st.updSeg i (fun s => { s with count := a.length }) = st := by
    apply updSeg_id st i _ hi
    rw [← hc]
  rw [h1]
  split
  · rename_i hcond
    apply updSeg_id st i _ hi
    rcases hbnd hcond.1 hcond.2 with ⟨hmn, hmx⟩
    rw [← hmn, ← hmx]
  · rfl

/-- An ordered split preserves the invariant, the contents, the totals
and the configuration. -/
theorem splitSegment_ordered_inv [LinearOrder α] (st : FenState α) (i : Nat)
    (hi : i < st.segments.length) (hord : st.ordered = true)
    (hsegs : ∀ s ∈ st.segments, segOk s)
    (htot : st.totalCount = (countsOf st).sum)
    (hfen0 : fenOkLite st) :
    (∀ s ∈ (splitSegment st i).segments, segOk s) ∧
    content (splitSegment st i) = content st ∧
    (splitSegment st i).ordered = true ∧
    (splitSegment st i).segmentCount = st.segmentCount ∧
    (splitSegment st i).chunkCount = st.chunkCount ∧
    (splitSegment st i).totalCount = st.totalCount ∧
    fenOkLite (splitSegment st i) := by
  rcases hsegs (st.seg i) (getD_mem_of_lt st.segments i default hi) with
    ⟨a, ha, hc, hne, hsort, hmn, hmx⟩
  by_cases hlen : 2 ≤ a.length
  · obtain ⟨hsegments, hfen, hordkeep, hsc, hcc, htc, _, _⟩ :=
      splitSegment_segments_ordered st i a hi hord ha hlen

    have hmid1 : 1 ≤ a.length / 2 := by omega
    have hmid2 : a.length / 2 < a.length := by omega
    have hLne : a.take (a.length / 2) ≠ [] := by
      intro hnil
      have := congrArg List.length hnil
      simp only [List.length_take, List.length_nil] at this
      omega
    have hRne : a.drop (a.length / 2) ≠ [] := by
      intro hnil
      have := congrArg List.length hnil
      simp only [List.length_drop, List.length_nil] at this
      omega
    have hLsort : List.Sorted (· ≤ ·) (a.take (a.length / 2)) :=
      List.Pairwise.sublist (List.take_sublist _ a) hsort
    have hRsort : List.Sorted (· ≤ ·) (a.drop (a.length / 2)) :=
      List.Pairwise.sublist (List.drop_sublist _ a) hsort
    have hsegall : ∀ s ∈ (splitSegment st i).segments, segOk s := by
      rw [hsegments]
      intro s hs
      rcases List.mem_append.mp hs with hs1 | hs2
      · exact hsegs s ((List.take_sublist i st.segments).subset hs1)
      · rcases List.mem_cons.mp hs2 with rfl | hs3
        · exact ⟨a.take (a.length / 2), rfl, rfl, hLne, hLsort, rfl, rfl⟩
        · rcases List.mem_cons.mp hs3 with rfl | hs4
          · exact ⟨a.drop (a.length / 2), rfl, rfl, hRne, hRsort, rfl, rfl⟩
          · exact hsegs s ((List.drop_sublist (i + 1) st.segments).subset hs4)
    have hcontent : content (splitSegment st i) = content st := by
      rw [content_split st i hi, content, hsegments]
      simp only [List.map_append, List.map_cons, List.flatten_append, List.flatten_cons]
      rw [List.map_take, List.map_drop]
      have harr : (st.seg i).arr.getD [] = a := by rw [ha]; rfl
      rw [harr]
      conv_rhs => rw [← List.take_append_drop (a.length / 2) a]
      simp only [Option.getD_some, List.append_assoc]
    have hsum : (countsOf (splitSegment st i)).sum = (countsOf st).sum := by
      unfold countsOf
      rw [hsegments]
      conv_rhs => rw [segments_decomp st i hi]
      simp only [List.map_append, List.map_cons, List.sum_append, List.sum_cons]
      have : (st.seg i).count = a.length := hc
      rw [this]
      simp only [List.length_take, List.length_drop]
      omega
    refine ⟨hsegall, hcontent, hordkeep.trans hord, hsc, hcc, htc, ?_⟩
    refine ⟨?_, ?_, ?_⟩
    · rw [hfen, buildFenwick_length]
      unfold countsOf
      rw [List.length_map]
    · intro j hj
      rw [hfen]
      rw [hfen, buildFenwick_length] at hj
      refine le_trans (countsOf_pos (splitSegment st i) hsegall j (by
        unfold countsOf
        unfold countsOf at hj
        omega)) (buildFenwick_le _ j)
    · rw [htc, hsum, htot]
  · -- split suppressed: one half is empty, the state is unchanged
    have habort : splitSegment st i = st := by
      have harr : st.arrOf i = a := by
        unfold FenState.arrOf
        rw [ha]
        rfl
      unfold splitSegment
      rw [touchArr_id st i (by rw [ha]; rfl)]
      dsimp only
      rw [harr]
      rw [if_pos (by
        simp only [List.length_take, List.length_drop]
        omega)]
    rw [habort]
    exact ⟨hsegs, rfl, hord, rfl, rfl, rfl, hfen0⟩

end TreeVector

namespace TreeVector

/-! Splice-insert bookkeeping and sorted-list bounds. -/

theorem spliceIn_length (l : List α) (pos : Nat) (v : α) :
    (spliceIn l pos v).length = l.length + 1 := by
  unfold spliceIn
  simp only [List.length_append, List.length_take, List.length_cons, List.length_drop]
  omega

theorem spliceIn_head (l : List α) (pos : Nat) (v : α) (hpos : pos ≤ l.length) :
    (spliceIn l pos v).head? = if pos = 0 then some v else l.head? := by
  cases l with
  | nil =>
    have h0 : pos = 0 := by simpa using hpos
    subst h0
    rfl
  | cons a t =>
    cases pos with
    | zero => rfl
    | succ n => simp [spliceIn]

theorem spliceIn_getLast (l : List α) (pos : Nat) (v : α) (hpos : pos ≤ l.length) :
    (spliceIn l pos v).getLast? = if pos = l.length then some v else l.getLast? := by
  by_cases hend : pos = l.length
  · rw [if_pos hend]
    unfold spliceIn
    rw [hend, List.take_length, List.drop_length, List.getLast?_concat]
  · rw [if_neg hend]
    have hlt : pos < l.length := lt_of_le_of_ne hpos hend
    have hdne : l.drop pos ≠ [] := by
      intro h
      have := congrArg List.length h
      simp only [List.length_drop, List.length_nil] at this
      omega
    unfold spliceIn
    rw [show v :: l.drop pos = [v] ++ l.drop pos from rfl, ← List.append_assoc,
      List.getLast?_append_of_ne_nil _ hdne]
    rw [List.getLast?_eq_getElem?, List.getLast?_eq_getElem?, List.length_drop,
      List.getElem?_drop]
    congr 1
    omega

theorem sorted_le_getLast [LinearOrder α] (a : List α) (hs : List.Sorted (· ≤ ·) a)
    (x m : α) (hx : x ∈ a) (hm : a.getLast? = some m) : x ≤ m := by
  rcases List.mem_iff_getElem.mp hx with ⟨i, hi, rfl⟩
  rw [List.getLast?_eq_getElem?,
    List.getElem?_eq_getElem (show a.length - 1 < a.length by omega)] at hm
  have hm' : a[a.length - 1] = m := by injection hm
  rcases Nat.lt_or_ge i (a.length - 1) with h | h
  · rw [← hm']
    exact List.pairwise_iff_get.mp hs ⟨i, hi⟩ ⟨a.length - 1, by omega⟩ h
  · have hieq : i = a.length - 1 := by omega
    subst hieq
    rw [hm']

theorem sorted_head_le [LinearOrder α] (a : List α) (hs : List.Sorted (· ≤ ·) a)
    (x h0 : α) (hx : x ∈ a) (hh : a.head? = some h0) : h0 ≤ x := by
  rcases List.mem_iff_getElem.mp hx with ⟨i, hi, rfl⟩
  rw [List.head?_eq_getElem?, List.getElem?_eq_getElem (show 0 < a.length by omega)] at hh
  have hh' : a[0] = h0 := by injection hh
  rcases Nat.eq_zero_or_pos i with h0i | hpos
  · subst h0i
    rw [← hh']
  · rw [← hh']
    exact List.pairwise_iff_get.mp hs ⟨0, by omega⟩ ⟨i, hi⟩ hpos

theorem getD_of_head (a : List α) (h0 d : α) (hh : a.head? = some h0) :
    a.getD 0 d = h0 := by
  cases a with
  | nil => simp at hh
  | cons x t =>
    simp only [List.head?_cons, Option.some.injEq] at hh
    simp [List.getD_cons_zero, hh]

theorem getD_of_getLast (a : List α) (m d : α) (hm : a.getLast? = some m) :
    a.getD (a.length - 1) d = m := by
  rw [List.getLast?_eq_getElem?] at hm
  rw [List.getD_eq_getElem?_getD, hm]
  rfl

theorem getD_eq_getElem (a : List α) (i : Nat) (d : α) (h : i < a.length) :
    a.getD i d = a[i] := by
  rw [List.getD_eq_getElem?_getD, List.getElem?_eq_getElem h]
  rfl

end TreeVector

namespace TreeVector

/-! Membership across the per-segment decomposition of `content`. -/

theorem mem_take_flatten_segs (st : FenState α) (k : Nat) (x : α)
    (hx : x ∈ ((st.segments.map (fun s => s.arr.getD [])).take k).flatten) :
    ∃ i, i < k ∧ i < st.segments.length ∧ x ∈ (st.seg i).arr.getD [] := by
  rw [List.mem_flatten] at hx
  rcases hx with ⟨l, hl, hxl⟩
  rcases List.mem_take_iff_getElem.mp hl with ⟨i, hm, rfl⟩
  have hi2 : i < st.segments.length := by
    simp only [lt_inf_iff, List.length_map] at hm
    exact hm.2
  have hi1 : i < k := by
    simp only [lt_inf_iff] at hm
    exact hm.1
  refine ⟨i, hi1, hi2, ?_⟩
  have hgd : (st.segments.map (fun s => s.arr.getD []))[i] = (st.seg i).arr.getD [] := by
    have h := content_getD st i hi2
    rwa [List.getD_eq_getElem?_getD,
      List.getElem?_eq_getElem (by rw [List.length_map]; omega), Option.getD_some] at h
  rwa [hgd] at hxl

theorem mem_drop_flatten_segs (st : FenState α) (k : Nat) (x : α)
    (hx : x ∈ ((st.segments.map (fun s => s.arr.getD [])).drop k).flatten) :
    ∃ i, k ≤ i ∧ i < st.segments.length ∧ x ∈ (st.seg i).arr.getD [] := by
  rw [List.mem_flatten] at hx
  rcases hx with ⟨l, hl, hxl⟩
  rcases List.mem_drop_iff_getElem.mp hl with ⟨j, hm, rfl⟩
  have hj : k + j < st.segments.length := by
    simp only [List.length_map] at hm
    omega
  refine ⟨k + j, Nat.le_add_right k j, hj, ?_⟩
  have hgd : (st.segments.map (fun s => s.arr.getD []))[k + j] =
      (st.seg (k + j)).arr.getD [] := by
    have h := content_getD st (k + j) hj
    rwa [List.getD_eq_getElem?_getD,
      List.getElem?_eq_getElem (by rw [List.length_map]; omega), Option.getD_some] at h
  rwa [hgd] at hxl

theorem content_cross [LinearOrder α] (st : FenState α)
    (hsorted : List.Sorted (· ≤ ·) (content st)) (i j : Nat) (hij : i < j)
    (hj : j < st.segments.length) (x y : α)
    (hx : x ∈ (st.seg i).arr.getD []) (hy : y ∈ (st.seg j).arr.getD []) : x ≤ y := by
  have hs' : List.Sorted (· ≤ ·) ((st.segments.map (fun s => s.arr.getD [])).flatten) :=
    hsorted
  refine sorted_flatten_cross (st.segments.map (fun s => s.arr.getD [])) hs' i j hij
    (by rw [List.length_map]; omega) x y ?_ ?_
  · rw [content_getD st i (by omega)]
    exact hx
  · rw [content_getD st j hj]
    exact hy

/-- The pieces of `segOk` at index `i`, phrased on the working array as
`content` sees it. -/
theorem segOk_fields [LinearOrder α] (st : FenState α) (i : Nat)
    (hsegs : ∀ s ∈ st.segments, segOk s) (hi : i < st.segments.length) :
    (st.seg i).arr = some ((st.seg i).arr.getD []) ∧
    (st.seg i).count = ((st.seg i).arr.getD []).length ∧
    (st.seg i).arr.getD [] ≠ [] ∧
    List.Sorted (· ≤ ·) ((st.seg i).arr.getD []) ∧
    (st.seg i).mn = ((st.seg i).arr.getD []).head? ∧
    (st.seg i).mx = ((st.seg i).arr.getD []).getLast? := by
  rcases hsegs (st.seg i) (getD_mem_of_lt st.segments i default hi) with
    ⟨a, ha, hc, hne, hsort, hmn, hmx⟩
  have harrD : (st.seg i).arr.getD [] = a := by rw [ha]; rfl
  rw [harrD, ha]
  exact ⟨rfl, hc, hne, hsort, hmn, hmx⟩

/-- The segment's maximum is an upper bound of its working array. -/
theorem segOk_mx_some [LinearOrder α] (st : FenState α) (i : Nat)
    (hsegs : ∀ s ∈ st.segments, segOk s) (hi : i < st.segments.length) :
    ∃ m, (st.seg i).mx = some m ∧ m ∈ (st.seg i).arr.getD [] ∧
      ∀ x ∈ (st.seg i).arr.getD [], x ≤ m := by
  obtain ⟨_, _, hne, hsort, _, hmx⟩ := segOk_fields st i hsegs hi
  obtain ⟨m, hm⟩ := Option.isSome_iff_exists.mp (List.getLast?_isSome.mpr hne)
  refine ⟨m, by rw [hmx, hm], List.mem_of_mem_getLast? (Option.mem_def.mpr hm), ?_⟩
  intro x hx
  exact sorted_le_getLast _ hsort x m hx hm

end TreeVector

namespace TreeVector

/-- Routing facts of `findFirstSegmentByMaxLowerBound` on a well-formed
ordered state: the returned index is in range, every earlier segment's
elements are strictly below `v`, and either the chosen segment has an
element `≥ v` or it is the last segment and all its elements are below
`v`. -/
theorem findFirstByMax_spec [LinearOrder α] (st : FenState α) (v : α)
    (hsegs : ∀ s ∈ st.segments, segOk s)
    (hsorted : List.Sorted (· ≤ ·) (content st))
    (hn : ¬ st.segments.length = 0) :
    findFirstByMax st v < st.segments.length ∧
    (∀ i, i < findFirstByMax st v → ∀ x ∈ (st.seg i).arr.getD [], x < v) ∧
    ((∃ y ∈ (st.seg (findFirstByMax st v)).arr.getD [], v ≤ y) ∨
      (findFirstByMax st v = st.segments.length - 1 ∧
        ∀ x ∈ (st.seg (findFirstByMax st v)).arr.getD [], x < v)) := by
  have hmono : ∀ i j, i ≤ j → j < st.segments.length →
      0 ≤ cmpOV (st.segments.getD i default).mx v →
      0 ≤ cmpOV (st.segments.getD j default).mx v := by
    intro i j hij hj hP
    rcases Nat.eq_or_lt_of_le hij with rfl | hlt
    · exact hP
    · obtain ⟨mi, hmi, hmiMem, _⟩ := segOk_mx_some st i hsegs (by omega)
      obtain ⟨mj, hmj, hmjMem, _⟩ := segOk_mx_some st j hsegs hj
      rw [show st.segments.getD i default = st.seg i from rfl, hmi,
        cmpOV_some_nonneg_iff] at hP
      rw [show st.segments.getD j default = st.seg j from rfl, hmj,
        cmpOV_some_nonneg_iff]
      exact le_trans hP (content_cross st hsorted i j hlt hj mi mj hmiMem hmjMem)
  have h := ffsAux_spec st.segments v hmono (st.segments.length + 1) 0 st.segments.length
    (by
      have h1 := Nat.lt_two_pow st.segments.length
      have h2 : (2:Nat) ^ st.segments.length ≤ 2 ^ (st.segments.length + 1) :=
        Nat.pow_le_pow_right (by norm_num) (by omega)
      omega)
    (Nat.zero_le _) (le_refl _) (fun i hi => by omega) (fun i h1 h2 => by omega)
  set r := ffsAux st.segments v (st.segments.length + 1) 0 st.segments.length with hr
  obtain ⟨hlow, hhigh, _, hrle⟩ := h
  have hkdef : findFirstByMax st v = min r (st.segments.length - 1) := by
    unfold findFirstByMax
    rw [hr]
  have hkn : findFirstByMax st v < st.segments.length := by rw [hkdef]; omega
  refine ⟨hkn, ?_, ?_⟩
  · intro i hik x hx
    have hir : i < r := by rw [hkdef] at hik; omega
    have hnot := hlow i hir
    obtain ⟨mi, hmi, _, hbound⟩ := segOk_mx_some st i hsegs (by omega)
    rw [show st.segments.getD i default = st.seg i from rfl, hmi,
      cmpOV_some_nonneg_iff] at hnot
    exact lt_of_le_of_lt (hbound x hx) (not_le.mp hnot)
  · by_cases hcase : r ≤ st.segments.length - 1
    · left
      have hk : findFirstByMax st v = r := by rw [hkdef]; omega
      have hrn : r < st.segments.length := by omega
      have hP := hhigh r (le_refl r) hrn
      obtain ⟨mr, hmr, hmem, _⟩ := segOk_mx_some st r hsegs hrn
      rw [show st.segments.getD r default = st.seg r from rfl, hmr,
        cmpOV_some_nonneg_iff] at hP
      rw [hk]
      exact ⟨mr, hmem, hP⟩
    · right
      have hk : findFirstByMax st v = st.segments.length - 1 := by rw [hkdef]; omega
      refine ⟨hk, ?_⟩
      rw [hk]
      intro x hx
      have hnot := hlow (st.segments.length - 1) (by omega)
      obtain ⟨m, hm, _, hbound⟩ :=
        segOk_mx_some st (st.segments.length - 1) hsegs (by omega)
      rw [show st.segments.getD (st.segments.length - 1) default =
          st.seg (st.segments.length - 1) from rfl, hm, cmpOV_some_nonneg_iff] at hnot
      exact lt_of_le_of_lt (hbound x hx) (not_le.mp hnot)

end TreeVector

namespace TreeVector

theorem seg_updSeg_self (st : FenState α) (i : Nat) (f : Seg α → Seg α)
    (h : i < st.segments.length) : (st.updSeg i f).seg i = f (st.seg i) := by
  unfold FenState.updSeg FenState.seg
  dsimp only
  exact getD_set_self' _ _ _ _ h

/-- Explicit form of the ordered `insert` on a non-empty, well-formed
state: `oInsert` computes `oInsPre` followed by the overflow check. -/
theorem oInsert_eq [LinearOrder α] (cd : Codec α V) (store : JStore V) (st : FenState α)
    (v : α) (k : Nat) (a : List α)
    (hn : ¬ st.segments.length = 0)
    (hk : findFirstByMax st v = k) (hkn : k < st.segments.length)
    (ha : (st.seg k).arr = some a) (hc : (st.seg k).count = a.length)
    (hne : a ≠ []) (hsort : List.Sorted (· ≤ ·) a)
    (hmn : (st.seg k).mn = a.head?) (hmx : (st.seg k).mx = a.getLast?) :
    (oInsert cd store st v).1 =
      (if a.length + 1 > st.segmentCount then splitSegment (oInsPre st v k a) k
       else oInsPre st v k a) := by
  obtain ⟨hlow, hhigh, hlble⟩ := lowerBoundIn_spec a v hsort
  have halen : 0 < a.length := List.length_pos.mpr hne
  obtain ⟨h0, hh0⟩ := Option.isSome_iff_exists.mp (List.head?_isSome.mpr hne)
  obtain ⟨m, hm⟩ := Option.isSome_iff_exists.mp (List.getLast?_isSome.mpr hne)
  have harrD : st.arrOf k = a := by
    unfold FenState.arrOf
    rw [ha]
    rfl
  unfold oInsert
  rw [if_neg hn]
  dsimp only
  rw [hk]
  rw [ensureSegLoaded_id cd store st k a hkn ha hc (fun _ _ => ⟨hmn, hmx⟩)]
  rw [harrD]
  have hc' : (st.segments.getD k default).count = a.length := hc
  have hmn' : (st.segments.getD k default).mn = a.head? := hmn
  have hmx' : (st.segments.getD k default).mx = a.getLast? := hmx
  unfold oInsPre FenState.updSeg FenState.seg
  dsimp only
  simp only [getD_set_self', List.length_set, hkn, List.set_set, hc', hmn', hmx',
    hh0, hm, cmpVO_some_neg_iff, cmpVO_some_pos_iff]
  by_cases hv1 : v < h0
  · have hlb0 : lowerBoundIn a v = 0 := by
      by_contra hlb
      have h1 := hlow 0 (by omega)
      rw [getD_of_head a h0 v hh0] at h1
      exact absurd hv1 (not_lt_of_lt h1)
    simp only [if_pos hv1, hlb0, eq_self_iff_true, if_true,
      if_neg (show ¬ (0 = a.length) by omega)]
    by_cases hov : a.length + 1 > st.segmentCount
    · rw [if_pos hov, if_pos hov]
    · rw [if_neg hov, if_neg hov]
  · by_cases hv2 : m < v
    · have hlbLen : lowerBoundIn a v = a.length := by
        by_contra hlb
        have h1 := hhigh (lowerBoundIn a v) (le_refl _) (by omega)
        have h2 := sorted_le_getLast a hsort (a.getD (lowerBoundIn a v) v) m
          (getD_mem_of_lt a (lowerBoundIn a v) v (by omega)) hm
        exact absurd hv2 (not_lt.mpr (le_trans h1 h2))
      simp only [if_neg hv1, if_pos hv2, hlbLen, eq_self_iff_true, if_true,
        if_neg (show ¬ (a.length = 0) by omega)]
      by_cases hov : a.length + 1 > st.segmentCount
      · rw [if_pos hov, if_pos hov]
      · rw [if_neg hov, if_neg hov]
    · have hlbneLen : ¬ lowerBoundIn a v = a.length := by
        intro hlb
        have h1 := hlow (a.length - 1) (by omega)
        rw [getD_of_getLast a m v hm] at h1
        exact hv2 h1
      by_cases hlb0 : lowerBoundIn a v = 0
      · have hveq : h0 = v := by
          refine le_antisymm (not_lt.mp hv1) ?_
          have h1 := hhigh 0 (by omega) halen
          rwa [getD_of_head a h0 v hh0] at h1
        subst hveq
        simp only [if_neg hv1, if_neg hv2, if_neg hlbneLen, hlb0, eq_self_iff_true,
          if_true, if_neg (show ¬ (0 = a.length) by omega)]
        by_cases hov : a.length + 1 > st.segmentCount
        · rw [if_pos hov, if_pos hov]
        · rw [if_neg hov, if_neg hov]
      · simp only [if_neg hv1, if_neg hv2, if_neg hlbneLen, if_neg hlb0]
        by_cases hov : a.length + 1 > st.segmentCount
        · rw [if_pos hov, if_pos hov]
        · rw [if_neg hov, if_neg hov]

end TreeVector

namespace TreeVector

/-- Correctness of the ordered `insert`: it preserves the ordered
invariant and the configuration, increments `totalCount`, and its
contents become the ordered insertion of the value. -/
theorem oInsert_spec [LinearOrder α] (cd : Codec α V) (store : JStore V) (st : FenState α)
    (v : α) (hInv : OInv st) :
    OInv (oInsert cd store st v).1 ∧
    content (oInsert cd store st v).1 = List.orderedInsert (· ≤ ·) v (content st) ∧
    (oInsert cd store st v).1.segmentCount = st.segmentCount ∧
    (oInsert cd store st v).1.chunkCount = st.chunkCount ∧
    (oInsert cd store st v).1.totalCount = st.totalCount + 1 := by
  obtain ⟨hord, hsegs, hsorted, hfenL, hfenP, htot⟩ := hInv
  by_cases hn : st.segments.length = 0
  · have hnil : st.segments = [] := List.length_eq_zero.mp hn
    have hres : oInsert cd store st v =
        (createInitialSegment st { count := 1, mn := some v, mx := some v } v, 0) := by
      unfold oInsert
      rw [if_pos hn]
    rw [hres]
    unfold createInitialSegment
    dsimp only
    rw [hnil]
    simp only [List.nil_append, List.map_cons, List.map_nil]
    have hcontNil : content st = [] := by
      unfold content
      rw [hnil]
      rfl
    have htot0 : st.totalCount = 0 := by
      rw [htot]
      unfold countsOf
      rw [hnil]
      rfl
    refine ⟨⟨hord, ?_, ?_, ?_, ?_, ?_⟩, ?_, ?_, ?_, ?_⟩
    · intro s hs
      rcases List.mem_singleton.mp hs with rfl
      refine ⟨[v], rfl, rfl, List.cons_ne_nil v [], ?_, rfl, rfl⟩
      simp
    · show List.Sorted (· ≤ ·) ([[v]].flatten)
      simp
    · rw [buildFenwick_length]
      rfl
    · intro i hi
      rw [buildFenwick_length] at hi
      have h0 : i = 0 := by
        simp only [List.length_cons, List.length_nil] at hi
        omega
      subst h0
      show 1 ≤ (buildFenwick [1]).getD 0 0
      decide
    · rfl
    · show [[v]].flatten = List.orderedInsert (· ≤ ·) v (content st)
      rw [hcontNil]
      rfl
    · trivial
    · trivial
    · show 1 = st.totalCount + 1
      omega
  · obtain ⟨hkn, hbelow, hroute⟩ := findFirstByMax_spec st v hsegs hsorted hn
    obtain ⟨ha, hc, hne, hsortk, hmn, hmx⟩ :=
      segOk_fields st (findFirstByMax st v) hsegs hkn
    set k := findFirstByMax st v with hkdef
    set a := (st.seg k).arr.getD [] with hadef
    have heq := oInsert_eq cd store st v k a hn hkdef.symm hkn ha hc hne hsortk hmn hmx
    rw [heq]
    obtain ⟨hlow, hhigh, hlble⟩ := lowerBoundIn_spec a v hsortk
    set lb := lowerBoundIn a v with hlbdef
    have halen : 0 < a.length := List.length_pos.mpr hne
    have hPsegs : (oInsPre st v k a).segments =
        st.segments.set k
          { count := a.length + 1,
            mn := if lb = 0 then some v else a.head?,
            mx := if lb = a.length then some v else a.getLast?,
            arr := some (spliceIn a lb v), dirty := true } := rfl
    have hsegOkP : ∀ s ∈ (oInsPre st v k a).segments, segOk s := by
      rw [hPsegs]
      intro s hs
      rcases List.mem_or_eq_of_mem_set hs with hmem | rfl
      · exact hsegs s hmem
      · refine ⟨spliceIn a lb v, rfl, (spliceIn_length a lb v).symm, ?_, ?_, ?_, ?_⟩
        · intro hnil
          have hl := congrArg List.length hnil
          rw [spliceIn_length] at hl
          simp at hl
        · rw [hlbdef, splice_lowerBound_eq_orderedInsert a v hsortk]
          exact List.Sorted.orderedInsert v a hsortk
        · exact (spliceIn_head a lb v hlble).symm
        · exact (spliceIn_getLast a lb v hlble).symm
    have hcontP : content (oInsPre st v k a) =
        ((st.segments.map (fun s => s.arr.getD [])).take k).flatten ++
          spliceIn a lb v ++
          ((st.segments.map (fun s => s.arr.getD [])).drop (k + 1)).flatten := by
      unfold content
      rw [hPsegs, List.map_set]
      rw [flatten_set _ k _ (by rw [List.length_map]; exact hkn)]
      dsimp only
      rw [Option.getD_some]
    have hcontSt : content st =
        ((st.segments.map (fun s => s.arr.getD [])).take k).flatten ++ a ++
          ((st.segments.map (fun s => s.arr.getD [])).drop (k + 1)).flatten := by
      rw [hadef]
      exact content_split st k hkn
    have hA : ∀ x ∈ ((st.segments.map (fun s => s.arr.getD [])).take k).flatten
        ++ a.take lb, x < v := by
      intro x hx
      rcases List.mem_append.mp hx with hT | hTake
      · obtain ⟨i, hik, hilen, hxi⟩ := mem_take_flatten_segs st k x hT
        exact hbelow i hik x hxi
      · rcases List.mem_take_iff_getElem.mp hTake with ⟨j, hj, rfl⟩
        simp only [lt_inf_iff] at hj
        have hlj := hlow j hj.1
        rwa [getD_eq_getElem a j v (by omega)] at hlj
    have hB : ∀ b ∈ a.drop lb ++
        ((st.segments.map (fun s => s.arr.getD [])).drop (k + 1)).flatten, v ≤ b := by
      intro b hb
      rcases List.mem_append.mp hb with hDrop | hD
      · rcases List.mem_drop_iff_getElem.mp hDrop with ⟨j, hj, rfl⟩
        have hbj := hhigh (lb + j) (Nat.le_add_right lb j) (by omega)
        rwa [getD_eq_getElem a (lb + j) v (by omega)] at hbj
      · obtain ⟨i, hki, hilen, hbi⟩ := mem_drop_flatten_segs st (k + 1) b hD
        rcases hroute with ⟨y, hymem, hvy⟩ | ⟨hlast, _⟩
        · refine le_trans hvy (content_cross st hsorted k i (by omega) hilen y b ?_ hbi)
          rw [← hadef]
          exact hymem
        · omega
    have hcontEq : content (oInsPre st v k a) =
        List.orderedInsert (· ≤ ·) v (content st) := by
      rw [hcontP, hcontSt]
      have hregroup :
          ((st.segments.map (fun s => s.arr.getD [])).take k).flatten ++ a ++
            ((st.segments.map (fun s => s.arr.getD [])).drop (k + 1)).flatten =
          (((st.segments.map (fun s => s.arr.getD [])).take k).flatten ++ a.take lb) ++
            (a.drop lb ++
              ((st.segments.map (fun s => s.arr.getD [])).drop (k + 1)).flatten) := by
        conv_lhs => rw [← List.take_append_drop lb a]
        simp only [List.append_assoc]
      rw [hregroup, orderedInsert_split _ _ v hA hB]
      unfold spliceIn
      simp only [List.append_assoc, List.cons_append]
    have hfenLP : (oInsPre st v k a).fenwick.length =
        (oInsPre st v k a).segments.length := by
      show (addFenwick st.fenwick k 1).length = (st.segments.set k _).length
      rw [addFenwick_length, List.length_set, hfenL]
    have hfenPP : ∀ i, i < (oInsPre st v k a).fenwick.length →
        1 ≤ (oInsPre st v k a).fenwick.getD i 0 := by
      intro i hi
      show 1 ≤ (addFenwick st.fenwick k 1).getD i 0
      refine le_trans (hfenP i ?_) (addFenwick_le st.fenwick k 1 i)
      have hlen : (oInsPre st v k a).fenwick.length = (addFenwick st.fenwick k 1).length :=
        rfl
      rw [hlen, addFenwick_length] at hi
      exact hi
    have hsegk : st.seg k = st.segments[k] := by
      unfold FenState.seg
      exact getD_eq_getElem st.segments k default hkn
    have hcntk : (countsOf st).getD k 0 = a.length := by
      unfold countsOf
      rw [List.getD_eq_getElem?_getD, List.getElem?_map, List.getElem?_eq_getElem hkn]
      simp only [Option.map_some', Option.getD_some]
      rw [← hsegk]
      exact hc
    have htotP : (oInsPre st v k a).totalCount = (countsOf (oInsPre st v k a)).sum := by
      show st.totalCount + 1 = _
      have hcounts : countsOf (oInsPre st v k a) =
          (countsOf st).set k
            ({ count := a.length + 1,
               mn := if lb = 0 then some v else a.head?,
               mx := if lb = a.length then some v else a.getLast?,
               arr := some (spliceIn a lb v), dirty := true } : Seg α).count := by
        unfold countsOf
        rw [hPsegs, List.map_set]
      rw [hcounts]
      show st.totalCount + 1 = ((countsOf st).set k (a.length + 1)).sum
      rw [show a.length + 1 = (countsOf st).getD k 0 + 1 by rw [hcntk]]
      rw [sum_set_getD (countsOf st) k 1
        (by unfold countsOf; rw [List.length_map]; exact hkn)]
      rw [htot]
    by_cases hov : a.length + 1 > st.segmentCount
    · rw [if_pos hov]
      have hki : k < (oInsPre st v k a).segments.length := by
        rw [hPsegs, List.length_set]
        exact hkn
      obtain ⟨hS1, hS2, hS3, hS4, hS5, hS6, hS7⟩ :=
        splitSegment_ordered_inv (oInsPre st v k a) k hki
          (show (oInsPre st v k a).ordered = true from hord)
          hsegOkP htotP ⟨hfenLP, hfenPP, htotP⟩
      refine ⟨⟨hS3, hS1, ?_, hS7⟩, ?_, ?_, ?_, ?_⟩
      · rw [hS2, hcontEq]
        exact List.Sorted.orderedInsert v (content st) hsorted
      · rw [hS2, hcontEq]
      · rw [hS4]
        rfl
      · rw [hS5]
        rfl
      · rw [hS6]
        rfl
    · rw [if_neg hov]
      refine ⟨⟨hord, hsegOkP, ?_, hfenLP, hfenPP, htotP⟩, hcontEq, rfl, rfl, rfl⟩
      rw [hcontEq]
      exact List.Sorted.orderedInsert v (content st) hsorted

end TreeVector

namespace TreeVector

theorem mkEmpty_OInv [LinearOrder α] (S C : Nat) : OInv (mkEmpty α true S C) := by
  refine ⟨rfl, ?_, ?_, rfl, ?_, rfl⟩
  · intro s hs
    simp [mkEmpty, setMetaF] at hs
  · show List.Sorted (· ≤ ·) (([] : List (List α)).flatten)
    simp
  · intro i hi
    simp [mkEmpty, setMetaF, buildFenwick] at hi

/-- Folding ordered inserts preserves the invariant; the contents grow
by exactly the inserted values (as a multiset) and `totalCount` counts
them. -/
theorem oBuild_fold_inv [LinearOrder α] (cd : Codec α V) (store : JStore V) (vs : List α) :
    ∀ st : FenState α, OInv st →
      OInv (vs.foldl (fun s w => (oInsert cd store s w).1) st) ∧
      (vs.foldl (fun s w => (oInsert cd store s w).1) st).totalCount
        = st.totalCount + vs.length ∧
      (content (vs.foldl (fun s w => (oInsert cd store s w).1) st)).Perm
        (content st ++ vs) := by
  induction vs with
  | nil =>
    intro st h
    exact ⟨h, by simp, by simp⟩
  | cons w ws ih =>
    intro st h
    obtain ⟨hI1, hC1, _, _, hT1⟩ := oInsert_spec cd store st w h
    obtain ⟨hI, hT, hP⟩ := ih (oInsert cd store st w).1 hI1
    simp only [List.foldl_cons]
    refine ⟨hI, ?_, ?_⟩
    · rw [hT, hT1]
      simp only [List.length_cons]
      omega
    · refine hP.trans ?_
      have h1 : (content (oInsert cd store st w).1 ++ ws).Perm ((w :: content st) ++ ws) := by
        refine List.Perm.append_right ws ?_
        rw [hC1]
        exact List.perm_orderedInsert _ w (content st)
      refine h1.trans ?_
      show (w :: (content st ++ ws)).Perm (content st ++ w :: ws)
      exact List.perm_middle.symm
end TreeVector

namespace TreeVector

/-- C2: after any sequence of `insert(v)` calls on an initially empty
ordered sequence, `range(0, total_count)` is non-decreasing under the
comparator and is a permutation of the multiset of inserted values
(hence equals the sorted arrangement of the inputs). -/
theorem c2_ordered_insert_sorted_permutation [LinearOrder α] (cd : Codec α V)
    (store : JStore V) (S C : Nat) (vs : List α) :
    List.Sorted (· ≤ ·) (rangeOut cd store (oBuild cd store S C vs) 0
      ((oBuild cd store S C vs).totalCount : Int)) ∧
    (rangeOut cd store (oBuild cd store S C vs) 0
      ((oBuild cd store S C vs).totalCount : Int)).Perm vs := by
  obtain ⟨hI, hT, hP⟩ :=
    oBuild_fold_inv cd store vs (mkEmpty α true S C) (mkEmpty_OInv S C)
  have hb : oBuild cd store S C vs =
      vs.foldl (fun s w => (oInsert cd store s w).1) (mkEmpty α true S C) := rfl
  obtain ⟨hord, hsegs, hsorted, hfen⟩ := hI
  have hrange : rangeOut cd store (oBuild cd store S C vs) 0
      ((oBuild cd store S C vs).totalCount : Int) = content (oBuild cd store S C vs) := by
    refine rangeOut_eq_content cd store _ ?_ ?_
    · intro s hs
      rw [hb] at hs
      rcases hsegs s hs with ⟨x, hx1, hx2, _, _, _, _⟩
      exact ⟨x, hx1, hx2⟩
    · rw [hb]
      exact hfen
  rw [hrange, hb]
  have hempty : content (mkEmpty α true S C) = [] := rfl
  rw [hempty] at hP
  simp only [List.nil_append] at hP
  exact ⟨hsorted, hP⟩

end TreeVector

namespace TreeVector

theorem seg_eq_getElem (st : FenState α) (t : Nat) (h : t < st.segments.length) :
    st.seg t = st.segments[t] := by
  unfold FenState.seg
  exact getD_eq_getElem st.segments t default h

/-- The `[lowerBound(lo), lowerBound(hi))` slice of a sorted array is
exactly its `lo ≤ x < hi` filter. -/
theorem slice_eq_filter [LinearOrder α] (a : List α) (lo hi : α)
    (hs : List.Sorted (· ≤ ·) a) :
    (if lowerBoundIn a lo < lowerBoundIn a hi then
        (a.drop (lowerBoundIn a lo)).take (lowerBoundIn a hi - lowerBoundIn a lo)
      else []) =
      a.filter (fun x => decide (lo ≤ x) && decide (x < hi)) := by
  obtain ⟨hlowS, hhighS, hleS⟩ := lowerBoundIn_spec a lo hs
  obtain ⟨hlowE, hhighE, hleE⟩ := lowerBoundIn_spec a hi hs
  set s := lowerBoundIn a lo with hsdef
  set e := lowerBoundIn a hi with hedef
  by_cases hse : s < e
  · rw [if_pos hse]
    have hdecomp : a = a.take s ++ ((a.drop s).take (e - s) ++ a.drop e) := by
      conv_lhs => rw [← List.take_append_drop s a]
      congr 1
      conv_lhs => rw [← List.take_append_drop (e - s) (a.drop s)]
      congr 1
      rw [List.drop_drop]
      congr 1
      omega
    conv_rhs => rw [hdecomp]
    rw [List.filter_append, List.filter_append]
    have h1 : (a.take s).filter (fun x => decide (lo ≤ x) && decide (x < hi)) = [] := by
      rw [List.filter_eq_nil_iff]
      intro x hx
      rcases List.mem_take_iff_getElem.mp hx with ⟨n, hn, rfl⟩
      simp only [lt_inf_iff] at hn
      have hnx := hlowS n hn.1
      rw [getD_eq_getElem a n lo (by omega)] at hnx
      simp only [Bool.and_eq_true, decide_eq_true_eq, not_and]
      intro hlox
      exact absurd hnx (not_lt.mpr hlox)
    have h3 : (a.drop e).filter (fun x => decide (lo ≤ x) && decide (x < hi)) = [] := by
      rw [List.filter_eq_nil_iff]
      intro x hx
      rcases List.mem_drop_iff_getElem.mp hx with ⟨n, hn, rfl⟩
      have hnx := hhighE (e + n) (Nat.le_add_right e n) (by omega)
      rw [getD_eq_getElem a (e + n) hi (by omega)] at hnx
      simp only [Bool.and_eq_true, decide_eq_true_eq, not_and]
      intro _
      exact not_lt.mpr hnx
    have h2 : ((a.drop s).take (e - s)).filter
        (fun x => decide (lo ≤ x) && decide (x < hi)) = (a.drop s).take (e - s) := by
      rw [List.filter_eq_self]
      intro x hx
      rcases List.mem_take_iff_getElem.mp hx with ⟨n, hn, rfl⟩
      simp only [lt_inf_iff, List.length_drop] at hn
      have hb : s + n < a.length := by omega
      have hxe : (a.drop s)[n] = a[s + n] := by
        rw [← getD_eq_getElem (a.drop s) n lo (by rw [List.length_drop]; omega),
          getD_drop_add a s n lo, getD_eq_getElem a (s + n) lo (by omega)]
      have hge := hhighS (s + n) (Nat.le_add_right s n) (by omega)
      rw [getD_eq_getElem a (s + n) lo (by omega)] at hge
      have hlt := hlowE (s + n) (by omega)
      rw [getD_eq_getElem a (s + n) hi (by omega)] at hlt
      rw [hxe]
      simp only [Bool.and_eq_true, decide_eq_true_eq]
      exact ⟨hge, hlt⟩
    rw [h1, h2, h3]
    simp
  · rw [if_neg hse]
    symm
    rw [List.filter_eq_nil_iff]
    intro x hx
    rcases List.mem_iff_getElem.mp hx with ⟨n, hn, rfl⟩
    simp only [Bool.and_eq_true, decide_eq_true_eq, not_and]
    intro hlox
    by_cases hne : n < e
    · have hnx := hlowS n (by omega)
      rw [getD_eq_getElem a n lo hn] at hnx
      exact absurd hlox (not_le.mpr hnx)
    · have hnx := hhighE n (by omega) hn
      rw [getD_eq_getElem a n hi hn] at hnx
      exact not_lt.mpr hnx

/-- The candidate-extension loop stops at or after its start, within the
segment list, and (when in range) at a segment whose `min` is not below
the upper bound. -/
theorem scanExtend_spec [LinearOrder α] (segs : List (Seg α)) (hi : α) :
    ∀ (fuel j0 : Nat), segs.length ≤ j0 + fuel →
      j0 ≤ scanExtend segs hi fuel j0 ∧
      scanExtend segs hi fuel j0 ≤ max j0 segs.length ∧
      ¬(scanExtend segs hi fuel j0 < segs.length ∧
        cmpOV (segs.getD (scanExtend segs hi fuel j0) default).mn hi < 0) := by
  intro fuel
  induction fuel with
  | zero =>
    intro j0 hl
    unfold scanExtend
    exact ⟨le_refl _, le_max_left _ _, fun hc => by omega⟩
  | succ fuel ih =>
    intro j0 hl
    unfold scanExtend
    by_cases hcond : j0 < segs.length ∧ cmpOV (segs.getD j0 default).mn hi < 0
    · rw [if_pos hcond]
      obtain ⟨h1, h2, h3⟩ := ih (j0 + 1) (by omega)
      refine ⟨by omega, ?_, h3⟩
      refine le_trans h2 ?_
      rw [Nat.max_eq_right (by omega)]
      exact le_max_right _ _
    · rw [if_neg hcond]
      exact ⟨le_refl _, le_max_left _ _, hcond⟩

theorem mem_map_drop_segs (st : FenState α) (k : Nat) (f : Seg α → List α) (l : List α)
    (hl : l ∈ (st.segments.drop k).map f) :
    ∃ t, k ≤ t ∧ t < st.segments.length ∧ l = f (st.seg t) := by
  rcases List.mem_map.mp hl with ⟨sg, hsg, rfl⟩
  rcases List.mem_drop_iff_getElem.mp hsg with ⟨n, hn, rfl⟩
  refine ⟨k + n, Nat.le_add_right _ _, by omega, ?_⟩
  congr 1
  rw [seg_eq_getElem st (k + n) (by omega)]

/-- The collection loop of `scan` returns exactly the filters of the
segments from its start index on, provided every segment at or past `j`
holds only values `≥ hi`. -/
theorem scanCollect_spec [LinearOrder α] (cd : Codec α V) (store : JStore V)
    (st : FenState α) (lo hi : α) (j : Nat)
    (hsegs : ∀ s ∈ st.segments, segOk s)
    (hsorted : List.Sorted (· ≤ ·) (content st))
    (hjn : j ≤ st.segments.length)
    (hGE : ∀ t, j ≤ t → t < st.segments.length →
      ∀ x ∈ (st.seg t).arr.getD [], hi ≤ x) :
    ∀ (fuel idx : Nat), idx ≤ j → j - idx < fuel →
      scanCollect cd store st lo hi j fuel idx =
        ((st.segments.drop idx).map
          (fun sg => (sg.arr.getD []).filter
            (fun x => decide (lo ≤ x) && decide (x < hi)))).flatten := by
  intro fuel
  induction fuel with
  | zero =>
    intro idx h1 h2
    omega
  | succ fuel ih =>
    intro idx hidxj hfuel
    unfold scanCollect
    by_cases hij : idx < j
    · rw [if_pos hij]
      have hidxn : idx < st.segments.length := by omega
      obtain ⟨ha, hc, hne, hsortI, hmnI, hmxI⟩ := segOk_fields st idx hsegs hidxn
      rw [loadSegArr_of_loaded cd store st idx _ ha]
      dsimp only
      rw [slice_eq_filter ((st.seg idx).arr.getD []) lo hi hsortI]
      rw [List.drop_eq_getElem_cons hidxn, List.map_cons, List.flatten_cons,
        ← seg_eq_getElem st idx hidxn]
      obtain ⟨_, hhighE, _⟩ := lowerBoundIn_spec ((st.seg idx).arr.getD []) hi hsortI
      by_cases hE : lowerBoundIn ((st.seg idx).arr.getD []) hi <
          ((st.seg idx).arr.getD []).length
      · rw [if_pos hE]
        have htail : ((st.segments.drop (idx + 1)).map
            (fun sg => (sg.arr.getD []).filter
              (fun x => decide (lo ≤ x) && decide (x < hi)))).flatten = [] := by
          rw [List.flatten_eq_nil_iff]
          intro l hl
          obtain ⟨t, ht1, ht2, rfl⟩ := mem_map_drop_segs st (idx + 1) _ l hl
          rw [List.filter_eq_nil_iff]
          intro x hx
          have hhd := hhighE (lowerBoundIn ((st.seg idx).arr.getD []) hi) (le_refl _) hE
          have hmem := getD_mem_of_lt ((st.seg idx).arr.getD [])
            (lowerBoundIn ((st.seg idx).arr.getD []) hi) hi hE
          have hcross := content_cross st hsorted idx t (by omega) ht2 _ x hmem hx
          simp only [Bool.and_eq_true, decide_eq_true_eq, not_and]
          intro _
          exact not_lt.mpr (le_trans hhd hcross)
        rw [htail, List.append_nil]
      · rw [if_neg hE]
        rw [ih (idx + 1) (by omega) (by omega)]
    · rw [if_neg hij]
      symm
      rw [List.flatten_eq_nil_iff]
      intro l hl
      obtain ⟨t, ht1, ht2, rfl⟩ := mem_map_drop_segs st idx _ l hl
      rw [List.filter_eq_nil_iff]
      intro x hx
      simp only [Bool.and_eq_true, decide_eq_true_eq, not_and]
      intro _
      exact not_lt.mpr (hGE t (by omega) ht2 x hx)

end TreeVector

namespace TreeVector

/-- On a well-formed ordered state, `scan(lo, hi)` is exactly the
`lo ≤ x < hi` filter of the contents. -/
theorem scanOut_eq_filter [LinearOrder α] (cd : Codec α V) (store : JStore V)
    (st : FenState α) (lo hi : α) (hInv : OInv st) :
    scanOut cd store st lo hi =
      (content st).filter (fun x => decide (lo ≤ x) && decide (x < hi)) := by
  obtain ⟨hord, hsegs, hsorted, _⟩ := hInv
  unfold scanOut
  by_cases hn : st.segments.length = 0
  · rw [if_pos hn]
    have hnil : st.segments = [] := List.length_eq_zero.mp hn
    rw [show content st = [] from by unfold content; rw [hnil]; rfl]
    rfl
  · rw [if_neg hn]
    dsimp only
    obtain ⟨hin, hbelow, _⟩ := findFirstByMax_spec st lo hsegs hsorted hn
    set i := findFirstByMax st lo with hidef
    obtain ⟨hji, hjmax, hjstop⟩ :=
      scanExtend_spec st.segments hi st.segments.length i (by omega)
    set j := scanExtend st.segments hi st.segments.length i with hjdef
    have hjn : j ≤ st.segments.length := by
      have h := hjmax
      rwa [Nat.max_eq_right (le_of_lt hin)] at h
    have hGE : ∀ t, j ≤ t → t < st.segments.length →
        ∀ x ∈ (st.seg t).arr.getD [], hi ≤ x := by
      intro t hjt htn x hx
      have hjltn : j < st.segments.length := by omega
      have hstop : ¬ cmpOV (st.segments.getD j default).mn hi < 0 := by
        intro hcnd
        exact hjstop ⟨hjltn, hcnd⟩
      obtain ⟨haj, hcj, hnej, hsortj, hmnj, hmxj⟩ := segOk_fields st j hsegs hjltn
      obtain ⟨h0j, hh0j⟩ := Option.isSome_iff_exists.mp (List.head?_isSome.mpr hnej)
      rw [show st.segments.getD j default = st.seg j from rfl, hmnj, hh0j,
        cmpOV_some_neg_iff] at hstop
      have hhd : hi ≤ h0j := not_lt.mp hstop
      rcases Nat.eq_or_lt_of_le hjt with rfl | hlt
      · exact le_trans hhd (sorted_head_le _ hsortj x h0j hx hh0j)
      · exact le_trans hhd (content_cross st hsorted j t hlt htn h0j x
          (List.mem_of_mem_head? (Option.mem_def.mpr hh0j)) hx)
    rw [scanCollect_spec cd store st lo hi j hsegs hsorted hjn hGE (j + 1) i hji (by omega)]
    unfold content
    rw [List.filter_flatten, List.map_map]
    conv_rhs => rw [show st.segments = st.segments.take i ++ st.segments.drop i from
      (List.take_append_drop i st.segments).symm]
    rw [List.map_append, List.flatten_append]
    have hpre : ((st.segments.take i).map
        ((fun l => l.filter (fun x => decide (lo ≤ x) && decide (x < hi))) ∘
          (fun s => s.arr.getD []))).flatten = [] := by
      rw [List.flatten_eq_nil_iff]
      intro l hl
      rcases List.mem_map.mp hl with ⟨sg, hsg, rfl⟩
      rcases List.mem_take_iff_getElem.mp hsg with ⟨t, ht, rfl⟩
      simp only [lt_inf_iff] at ht
      show (st.segments[t].arr.getD []).filter _ = []
      rw [List.filter_eq_nil_iff]
      intro x hx
      rw [← seg_eq_getElem st t (by omega)] at hx
      have hxlo := hbelow t ht.1 x hx
      simp only [Bool.and_eq_true, decide_eq_true_eq, not_and]
      intro hlo
      exact absurd hxlo (not_lt.mpr hlo)
    rw [hpre, List.nil_append]
    rfl

/-- C3: `scan(lo, hi)` on an ordered sequence built by `insert` calls
equals the sub-sequence of `range(0, total_count)` of the elements with
`lo ≤ x < hi`, in the same order. -/
theorem c3_scan_eq_range_filter [LinearOrder α] (cd : Codec α V) (store : JStore V)
    (S C : Nat) (vs : List α) (lo hi : α) :
    scanOut cd store (oBuild cd store S C vs) lo hi =
      (rangeOut cd store (oBuild cd store S C vs) 0
        ((oBuild cd store S C vs).totalCount : Int)).filter
        (fun x => decide (lo ≤ x) && decide (x < hi)) := by
  obtain ⟨hI, hT, hP⟩ :=
    oBuild_fold_inv cd store vs (mkEmpty α true S C) (mkEmpty_OInv S C)
  have hb : oBuild cd store S C vs =
      vs.foldl (fun s w => (oInsert cd store s w).1) (mkEmpty α true S C) := rfl
  have hI' : OInv (oBuild cd store S C vs) := by
    rw [hb]
    exact hI
  obtain ⟨hord, hsegs, hsorted, hfen⟩ := hI'
  have hrange : rangeOut cd store (oBuild cd store S C vs) 0
      ((oBuild cd store S C vs).totalCount : Int) = content (oBuild cd store S C vs) := by
    refine rangeOut_eq_content cd store _ ?_ hfen
    intro s hs
    rcases hsegs s hs with ⟨x, hx1, hx2, _, _, _, _⟩
    exact ⟨x, hx1, hx2⟩
  rw [hrange]
  exact scanOut_eq_filter cd store _ lo hi ⟨hord, hsegs, hsorted, hfen⟩

end TreeVector

namespace TreeVector

/-! Store-key framing of the chunk commits. -/

theorem find_overwrite_ne (l : List (String × V)) (k key : String) (v : V)
    (hne : ¬ k = key) :
    (l.map (fun p => if p.1 == k then (k, v) else p)).find? (fun p => p.1 == key) =
      l.find? (fun p => p.1 == key) := by
  induction l with
  | nil => rfl
  | cons p t ih =>
    simp only [List.map_cons]
    by_cases hp : (p.1 == k) = true
    · rw [if_pos hp]
      have hpk : p.1 = k := by simpa using hp
      have hkkey : (k == key) = false := by simp [hne]
      have hpkey : (p.1 == key) = false := by simp [hpk, hne]
      simp only [List.find?_cons, hkkey, hpkey]
      exact ih
    · rw [if_neg hp]
      rcases hpkey : (p.1 == key) with _ | _
      · simp only [List.find?_cons, hpkey]
        exact ih
      · simp only [List.find?_cons, hpkey]

theorem find_append_singleton_ne (l : List (String × V)) (k key : String) (v : V)
    (hne : ¬ k = key) :
    (l ++ [(k, v)]).find? (fun p => p.1 == key) = l.find? (fun p => p.1 == key) := by
  induction l with
  | nil =>
    simp only [List.nil_append]
    have hkkey : (k == key) = false := by simp [hne]
    simp only [List.find?_cons, hkkey]
  | cons p t ih =>
    rw [List.cons_append]
    rcases hp : (p.1 == key) with _ | _
    · simp only [List.find?_cons, hp]
      exact ih
    · simp only [List.find?_cons, hp]

/-- A successful `store.set` under one key leaves `store.get` at every
other key unchanged. -/
theorem sget_storeSet_ne (store store' : JStore V) (k key : String) (v : V)
    (hset : storeSet store k v = some store') (hne : ¬ k = key) :
    sget store' key = sget store key := by
  unfold storeSet at hset
  split at hset
  · exact absurd hset (by simp)
  · injection hset with h
    subst h
    unfold sget assocSet
    dsimp only
    split
    · rw [find_overwrite_ne store.entries k key v hne]
    · rw [find_append_singleton_ne store.entries k key v hne]

/-- A sequence `flush` never touches store keys outside its generator's
range. -/
theorem flushF_sget_other (cd : Codec α V) (gen : Nat → String) (st : FenState α)
    (store : JStore V) (key : String) (hk : ∀ c, ¬ gen c = key) :
    sget (flushF cd gen st store).store key = sget store key := by
  have hfold : ∀ (grps : List (Nat × List Nat)) (r : FlushOut α V),
      sget ((grps.foldl (flushChunkStep cd gen) r).store) key = sget r.store key := by
    intro grps
    induction grps with
    | nil => intro r; rfl
    | cons g t ih =>
      intro r
      rw [List.foldl_cons, ih]
      unfold flushChunkStep
      dsimp only
      split
      · rfl
      · rename_i store' hss
        exact sget_storeSet_ne r.store store' (gen g.1) key _ hss (hk g.1)
  unfold flushF
  split
  · rfl
  · dsimp only
    split
    · exact hfold (flushGroups st) ⟨[], true, st, store⟩
    · exact hfold (flushGroups st) ⟨[], true, st, store⟩

/-- The column pass of `Table.flush` never touches store keys outside
its generators' range. -/
theorem tableColFold_sget (gens : Nat → Nat → String) (key : String)
    (hkeys : ∀ i c, ¬ gens i c = key) :
    ∀ (cols : List (Nat × String × VType × FenState (Option JSVal)))
      (acc : Bool × JStore TVal × List (String × VType × FenState (Option JSVal))),
      sget ((cols.foldl
        (fun (acc : Bool × JStore TVal × List (String × VType × FenState (Option JSVal)))
            q =>
          let r := flushF cdCol (gens (q.1 + 1)) q.2.2.2 acc.2.1
          (acc.1 && r.ok, r.store, acc.2.2 ++ [(q.2.1, q.2.2.1, r.st)])) acc).2.1) key =
        sget acc.2.1 key := by
  intro cols
  induction cols with
  | nil => intro acc; rfl
  | cons q t ih =>
    intro acc
    rw [List.foldl_cons, ih]
    exact flushF_sget_other cdCol (gens (q.1 + 1)) q.2.2.2 acc.2.1 key
      (fun c => hkeys (q.1 + 1) c)

/-- C5: if any column's flush fails, `Table.flush` propagates the
failure (`ok = false`), leaves the store's value at `metaKey` unchanged,
and keeps the committed meta snapshot, so `getMeta()` of a committed
table is unchanged. -/
theorem c5_flush_failure_atomic_meta (gens : Nat → Nat → String) (metaKey : String)
    (t : TableState) (store : JStore TVal)
    (hfail : (tableColFlushes gens t store).1 = false)
    (hkeys : ∀ i c, ¬ gens i c = metaKey) :
    (tableFlush gens metaKey t store).ok = false ∧
    sget (tableFlush gens metaKey t store).store metaKey = sget store metaKey ∧
    (tableFlush gens metaKey t store).t.committedMeta = t.committedMeta ∧
    (∀ m, t.committedMeta = some m →
      tableGetMeta (tableFlush gens metaKey t store).t = tableGetMeta t) := by
  unfold tableColFlushes at hfail
  dsimp only at hfail
  unfold tableFlush
  dsimp only
  rw [if_neg (by rw [hfail]; exact Bool.false_ne_true)]
  refine ⟨rfl, ?_, rfl, ?_⟩
  · rw [tableColFold_sget gens metaKey hkeys]
    exact flushF_sget_other cdOrd (gens 0) t.order store metaKey (fun c => hkeys 0 c)
  · intro m hm
    unfold tableGetMeta
    dsimp only
    rw [hm]
    rfl

/-- Witness of C5 at a concrete table: one inserted row, a store whose
`set` throws on the column flush key. -/
theorem c5_flush_failure_atomic_meta_witness :
    (tableColFlushes c5Gens c5Table c5Store).1 = false ∧
    (tableFlush c5Gens "meta" c5Table c5Store).ok = false ∧
    sget (tableFlush c5Gens "meta" c5Table c5Store).store "meta" =
      sget c5Store "meta" := by
  refine ⟨by decide, ?_, ?_⟩
  · exact (c5_flush_failure_atomic_meta c5Gens "meta" c5Table c5Store (by decide)
      (fun i c => by simp [c5Gens])).1
  · exact (c5_flush_failure_atomic_meta c5Gens "meta" c5Table c5Store (by decide)
      (fun i c => by simp [c5Gens])).2.1

end TreeVector

namespace TreeVector

/-! Frame facts of the copy-on-write chunk commit. -/

theorem effChunkSize_pos (st : FenState α) : 0 < effChunkSize st := by
  unfold effChunkSize
  split
  · omega
  · omega

theorem mem_dirtyIdx (st : FenState α) (i : Nat) :
    i ∈ dirtyIdx st ↔ i < st.segments.length ∧ (st.seg i).dirty = true := by
  unfold dirtyIdx
  rw [List.mem_filter, List.mem_range]

theorem getOrLoadChunk_frame (cd : Codec α V) (store : JStore V) (st : FenState α)
    (cidx : Nat) :
    (getOrLoadChunk cd store st cidx).2.segments = st.segments ∧
    (getOrLoadChunk cd store st cidx).2.chunks = st.chunks ∧
    (getOrLoadChunk cd store st cidx).2.ordered = st.ordered ∧
    (getOrLoadChunk cd store st cidx).2.chunkCount = st.chunkCount := by
  unfold getOrLoadChunk
  cases hc : cacheGet st.cache cidx with
  | none => exact ⟨rfl, rfl, rfl, rfl⟩
  | some ch => exact ⟨rfl, rfl, rfl, rfl⟩

theorem foldSet_getD_other (st : FenState α) (cs : Nat) (l : List Nat)
    (base : List (List α)) (s : Nat) (hs : ∀ i ∈ l, ¬ i % cs = s) :
    (l.foldl (fun nc i => nc.set (i % cs) (st.arrOf i)) base).getD s [] =
      base.getD s [] := by
  induction l generalizing base with
  | nil => rfl
  | cons i t ih =>
    rw [List.foldl_cons, ih _ (fun j hj => hs j (List.mem_cons_of_mem i hj))]
    exact getD_set_of_ne base (i % cs) s _ [] (hs i (List.mem_cons_self i t))

theorem foldSet_getD_mem (st : FenState α) (cs : Nat) (l : List Nat)
    (base : List (List α)) (i0 : Nat) (hmem : i0 ∈ l) (hbase : i0 % cs < base.length)
    (huniq : ∀ j ∈ l, j % cs = i0 % cs → j = i0) :
    (l.foldl (fun nc i => nc.set (i % cs) (st.arrOf i)) base).getD (i0 % cs) [] =
      st.arrOf i0 := by
  induction l generalizing base with
  | nil => simp at hmem
  | cons i t ih =>
    rw [List.foldl_cons]
    by_cases hit : i0 ∈ t
    · exact ih _ hit (by rw [List.length_set]; exact hbase)
        (fun j hj hq => huniq j (List.mem_cons_of_mem i hj) hq)
    · have hieq : i = i0 := by
        rcases List.mem_cons.mp hmem with h | h
        · exact h.symm
        · exact absurd h hit
      subst hieq
      rw [foldSet_getD_other st cs t _ (i % cs) (fun j hj hq => by
        have := huniq j (List.mem_cons_of_mem i hj) hq
        subst this
        exact hit hj)]
      exact getD_set_self' base (i % cs) _ [] hbase

theorem find_map_overwrite_self (l : List (String × V)) (k : String) (v : V)
    (hany : l.any (fun p => p.1 == k) = true) :
    ((l.map (fun p => if p.1 == k then (k, v) else p)).find?
      (fun p => p.1 == k)).map (fun q => q.2) = some v := by
  induction l with
  | nil => simp at hany
  | cons p t ih =>
    simp only [List.map_cons]
    by_cases hp : (p.1 == k) = true
    · rw [if_pos hp, List.find?_cons_of_pos _ (by simp)]
      rfl
    · rw [if_neg hp, List.find?_cons_of_neg _ (by simpa using hp)]
      refine ih ?_
      simp only [List.any_cons, Bool.or_eq_true] at hany
      exact (hany.resolve_left (by simpa using hp) : _)

theorem find_append_self (l : List (String × V)) (k : String) (v : V)
    (hany : l.any (fun p => p.1 == k) = false) :
    ((l ++ [(k, v)]).find? (fun p => p.1 == k)).map (fun q => q.2) = some v := by
  induction l with
  | nil =>
    simp only [List.nil_append]
    rw [List.find?_cons_of_pos _ (by simp)]
    rfl
  | cons p t ih =>
    rw [List.any_cons, Bool.or_eq_false_iff] at hany
    rw [List.cons_append, List.find?_cons_of_neg _ (by simp [hany.1])]
    exact ih hany.2

theorem sget_storeSet_self (store store' : JStore V) (k : String) (v : V)
    (hset : storeSet store k v = some store') :
    sget store' k = some v := by
  unfold storeSet at hset
  split at hset
  · exact absurd hset (by simp)
  · injection hset with h
    subst h
    unfold sget assocSet
    dsimp only
    split
    · rename_i hany
      exact find_map_overwrite_self store.entries k v hany
    · rename_i hany
      exact find_append_self store.entries k v (Bool.eq_false_iff.mpr hany)

theorem getD_pad_set_other (l : List (Option String)) (c c' : Nat) (k : String)
    (hne : ¬ c' = c) :
    ((l ++ List.replicate (c + 1 - l.length) none).set c (some k)).getD c' none =
      l.getD c' none := by
  rw [getD_set_of_ne _ c c' _ none (fun h => hne h.symm)]
  by_cases hc' : c' < l.length
  · rw [List.getD_eq_getElem?_getD, List.getElem?_append, if_pos hc',
      List.getD_eq_getElem?_getD]
  · rw [List.getD_eq_getElem?_getD, List.getD_eq_getElem?_getD,
      List.getElem?_append, if_neg hc', List.getElem?_replicate]
    have hl : l[c']? = none := List.getElem?_eq_none (by omega)
    rw [hl]
    split
    · rfl
    · rfl

end TreeVector

namespace TreeVector

/-- When every dirty segment lives in chunk `c`, the `changedByChunk`
grouping has the single group `(c, dirty segment indexes)`. -/
theorem flushGroups_single (st : FenState α) (c : Nat)
    (hne : ¬ dirtyIdx st = [])
    (hall : ∀ i ∈ dirtyIdx st, i / effChunkSize st = c) :
    flushGroups st = [(c, dirtyIdx st)] := by
  have haux : ∀ (l : List Nat) (l0 : List Nat), (∀ i ∈ l, i / effChunkSize st = c) →
      l.foldl (fun acc i =>
        if acc.any (fun p => p.1 == i / effChunkSize st) then
          acc.map (fun p => if p.1 == i / effChunkSize st then (p.1, p.2 ++ [i]) else p)
        else acc ++ [(i / effChunkSize st, [i])]) [(c, l0)] = [(c, l0 ++ l)] := by
    intro l
    induction l with
    | nil =>
      intro l0 _
      simp
    | cons i t ih =>
      intro l0 hl
      have hic : i / effChunkSize st = c := hl i (List.mem_cons_self i t)
      rw [List.foldl_cons]
      rw [hic]
      simp only [List.any_cons, List.any_nil, beq_self_eq_true, Bool.or_false, if_true,
        List.map_cons, List.map_nil]
      rw [ih (l0 ++ [i]) (fun j hj => hl j (List.mem_cons_of_mem i hj))]
      rw [List.append_assoc]
      rfl
  obtain ⟨d, rest, hd⟩ := List.exists_cons_of_ne_nil hne
  have hdc : d / effChunkSize st = c := by
    apply hall
    rw [hd]
    exact List.mem_cons_self d rest
  unfold flushGroups
  rw [hd, List.foldl_cons]
  rw [hdc]
  simp only [List.any_nil, Bool.false_eq_true, if_false, List.nil_append]
  rw [haux rest [d] (fun j hj => hall j (by rw [hd]; exact List.mem_cons_of_mem d hj))]
  rfl

end TreeVector

namespace TreeVector

/-- C6: a flush whose dirty segments all lie in chunk `c` records a
fresh key from the generator at `chunks[c]`, leaves every other chunk
index's recorded key unchanged, and writes under that key a blob that
preserves verbatim every slot of the loaded previous chunk value that
does not belong to a dirty segment, while each dirty segment's slot
holds its current working array. -/
theorem c6_flush_cow_frame (cd : Codec α V) (gen : Nat → String)
    (st : FenState α) (store : JStore V) (c : Nat)
    (hne : ¬ dirtyIdx st = [])
    (hall : ∀ i ∈ dirtyIdx st, i / effChunkSize st = c)
    (hfail : ¬ gen c ∈ store.failKeys) :
    (flushF cd gen st store).st.chunks.getD c none = some (gen c) ∧
    (∀ c', ¬ c' = c → (flushF cd gen st store).st.chunks.getD c' none =
      st.chunks.getD c' none) ∧
    (∃ nc : List (List α),
      sget (flushF cd gen st store).store (gen c) = some (cd.enc nc) ∧
      (∀ s, s < effChunkSize st →
        ¬ (st.seg (c * effChunkSize st + s)).dirty = true →
        nc.getD s [] = (getOrLoadChunk cd store st c).1.getD s []) ∧
      (∀ i ∈ dirtyIdx st, nc.getD (i % effChunkSize st) [] = st.arrOf i)) := by
  unfold flushF
  rw [if_neg hne]
  dsimp only
  rw [flushGroups_single st c hne hall]
  rw [List.foldl_cons, List.foldl_nil]
  unfold flushChunkStep
  dsimp only
  set cs := effChunkSize st with hcs
  set lc := getOrLoadChunk cd store st c with hlc
  set base := (List.range cs).map (fun i => lc.1.getD i []) with hbasedef
  set nc0 := (dirtyIdx st).foldl (fun ncc i => ncc.set (i % cs) (st.arrOf i)) base
    with hncdef
  have hchunksEq : lc.2.chunks = st.chunks := (getOrLoadChunk_frame cd store st c).2.1
  rcases hss : storeSet store (gen c) (cd.enc nc0) with _ | store'
  · exfalso
    unfold storeSet at hss
    rw [if_neg hfail] at hss
    simp at hss
  · dsimp only
    refine ⟨?_, ?_, nc0, ?_, ?_, ?_⟩
    · rw [hchunksEq]
      exact getD_set_self' _ c _ none
        (by rw [List.length_append, List.length_replicate]; omega)
    · intro c' hc'
      rw [hchunksEq]
      exact getD_pad_set_other st.chunks c c' (gen c) hc'
    · exact sget_storeSet_self store store' (gen c) (cd.enc nc0) hss
    · intro s hs hnd
      have hnotmem : ∀ i ∈ dirtyIdx st, ¬ i % cs = s := by
        intro i hi his
        have hd := (mem_dirtyIdx st i).mp hi
        have hic := hall i hi
        have hieq : i = cs * c + s := by
          rw [← his, ← hic]
          exact (Nat.div_add_mod i cs).symm
        apply hnd
        rw [Nat.mul_comm c (effChunkSize st)]
        rw [show effChunkSize st * c + s = i from by rw [hieq, hcs]]
        exact hd.2
      rw [hncdef, foldSet_getD_other st cs (dirtyIdx st) base s hnotmem, hbasedef]
      have hrg : (List.range cs).getD s 0 = s := by
        rw [getD_eq_getElem _ _ _ (by rw [List.length_range]; exact hs)]
        exact List.getElem_range s (by rw [List.length_range]; exact hs)
      rw [getD_map_list (fun i => lc.1.getD i []) (List.range cs) s
        (by rw [List.length_range]; exact hs) 0, hrg]
    · intro i hi
      rw [hncdef]
      refine foldSet_getD_mem st cs (dirtyIdx st) base i hi ?_ ?_
      · rw [hbasedef, List.length_map, List.length_range, hcs]
        exact Nat.mod_lt i (effChunkSize_pos st)
      · intro j hj hq
        have hic := hall i hi
        have hjc := hall j hj
        have h1 := Nat.div_add_mod j cs
        have h2 := Nat.div_add_mod i cs
        rw [hcs, hjc] at h1
        rw [hcs, hic] at h2
        rw [hq] at h1
        exact (h1.symm.trans h2).symm.symm

end TreeVector

namespace TreeVector

/-- Witness of C6 at a concrete flush: the ordered sequence built from
`[10, 20, 30]` with `segmentCount = 2` has both its segments dirty in
chunk 0, and flushing records the generator's key for chunk 0. -/
theorem c6_flush_cow_frame_witness :
    (¬ dirtyIdx (oBuild cdI emptyIntStore 2 8 [10, 20, 30]) = []) ∧
    (flushF cdI c6Gen (oBuild cdI emptyIntStore 2 8 [10, 20, 30])
        emptyIntStore).st.chunks.getD 0 none = some (c6Gen 0) := by
  refine ⟨by decide, ?_⟩
  exact (c6_flush_cow_frame cdI c6Gen (oBuild cdI emptyIntStore 2 8 [10, 20, 30])
    emptyIntStore 0 (by decide) (by decide) (by decide)).1

end TreeVector

namespace TreeVector

/-- The row-assembly fold of `Table.get` / `Table.range` only ever
appends fields named after the folded columns. -/
theorem tblFold_append (store : JStore TVal) (idx : Int) :
    ∀ (cols : List (String × VType × FenState (Option JSVal))) (acc : Row),
      ∃ ext : Row, cols.foldl (fun row c =>
          match getOut cdCol store c.2.2 idx with
          | some (some jv) => row ++ [(c.1, jv)]
          | _ => row) acc = acc ++ ext ∧
        ∀ k ∈ ext.map Prod.fst, ∃ c ∈ cols, c.1 = k := by
  intro cols
  induction cols with
  | nil =>
    intro acc
    exact ⟨[], by simp, by simp⟩
  | cons c rest ih =>
    intro acc
    rw [List.foldl_cons]
    rcases hgo : getOut cdCol store c.2.2 idx with _ | (_ | jv)
    · obtain ⟨ext, hext, hkeys⟩ := ih acc
      exact ⟨ext, hext, fun k hk =>
        (hkeys k hk).elim (fun d hd => ⟨d, List.mem_cons_of_mem c hd.1, hd.2⟩)⟩
    · obtain ⟨ext, hext, hkeys⟩ := ih acc
      exact ⟨ext, hext, fun k hk =>
        (hkeys k hk).elim (fun d hd => ⟨d, List.mem_cons_of_mem c hd.1, hd.2⟩)⟩
    · obtain ⟨ext, hext, hkeys⟩ := ih (acc ++ [(c.1, jv)])
      refine ⟨(c.1, jv) :: ext, ?_, ?_⟩
      · rw [hext, List.append_assoc]
        rfl
      · intro k hk
        rcases List.mem_map.mp hk with ⟨q, hq, rfl⟩
        rcases List.mem_cons.mp hq with rfl | hq2
        · exact ⟨c, List.mem_cons_self c rest, rfl⟩
        · obtain ⟨d, hd1, hd2⟩ := hkeys q.1 (List.mem_map_of_mem Prod.fst hq2)
          exact ⟨d, List.mem_cons_of_mem c hd1, hd2⟩

/-- When every folded column reads back `undefined`, the row-assembly
fold adds nothing. -/
theorem tblFold_none (store : JStore TVal) (idx : Int) :
    ∀ (cols : List (String × VType × FenState (Option JSVal))) (acc : Row),
      (∀ c ∈ cols, getOut cdCol store c.2.2 idx = none) →
      cols.foldl (fun row c =>
          match getOut cdCol store c.2.2 idx with
          | some (some jv) => row ++ [(c.1, jv)]
          | _ => row) acc = acc := by
  intro cols
  induction cols with
  | nil => intro acc _; rfl
  | cons c rest ih =>
    intro acc hnone
    rw [List.foldl_cons]
    rw [hnone c (List.mem_cons_self c rest)]
    exact ih acc (fun d hd => hnone d (List.mem_cons_of_mem c hd))

/-- A row assembled from a seed field keeps that field retrievable
(`find?` returns the first match). -/
theorem rowGet_fold_seed (store : JStore TVal) (idx : Int)
    (cols : List (String × VType × FenState (Option JSVal))) (k : String) (v : JSVal) :
    (rowGet (cols.foldl (fun row c =>
      match getOut cdCol store c.2.2 idx with
      | some (some jv) => row ++ [(c.1, jv)]
      | _ => row) [(k, v)]) k).isSome = true := by
  obtain ⟨ext, hext, _⟩ := tblFold_append store idx cols [(k, v)]
  rw [hext, List.singleton_append]
  unfold rowGet
  rw [List.find?_cons_of_pos _ (by simp)]
  rfl

/-- C10: `Table.get` returns a plain row that never contains the
order-key column; outside `[0, order.total_count)` it returns the empty
row (for any table whose columns do not outrun the order column); and
every row of `Table.range` carries the order-key field. -/
theorem c10_get_omits_order_key_range_includes (store : JStore TVal) (t : TableState)
    (i : Int) (off lim : Option Int)
    (halign : ∀ cdat ∈ t.cols, cdat.2.2.totalCount ≤ t.order.totalCount) :
    t.orderKey ∉ (tableGet store t i).map Prod.fst ∧
    ((i < 0 ∨ (t.order.totalCount : Int) ≤ i) → tableGet store t i = []) ∧
    (∀ r ∈ tableRange store t off lim, (rowGet r t.orderKey).isSome = true) := by
  refine ⟨?_, ?_, ?_⟩
  · unfold tableGet
    obtain ⟨ext, hext, hkeys⟩ :=
      tblFold_append store i (t.cols.filter (fun c => ¬(c.1 == t.orderKey))) []
    rw [hext]
    simp only [List.nil_append]
    intro hmem
    obtain ⟨c, hc, hck⟩ := hkeys t.orderKey hmem
    have h2 := (List.mem_filter.mp hc).2
    rw [hck] at h2
    simp at h2
  · intro hor
    unfold tableGet
    refine tblFold_none store i _ [] ?_
    intro c hc
    unfold getOut
    rw [if_pos ?_]
    rcases hor with h | h
    · exact Or.inl h
    · refine Or.inr ?_
      have hle := halign c (List.mem_of_mem_filter hc)
      have : (c.2.2.totalCount : Int) ≤ (t.order.totalCount : Int) := Int.ofNat_le.mpr hle
      omega
  · intro r hr
    unfold tableRange at hr
    dsimp only at hr
    rcases List.mem_map.mp hr with ⟨n, hn, rfl⟩
    exact rowGet_fold_seed store _ _ t.orderKey _

end TreeVector

namespace TreeVector

/-- Witness of C10 at a concrete one-row table. -/
theorem c10_get_omits_order_key_range_includes_witness :
    (∀ cdat ∈ c10Table.cols, cdat.2.2.totalCount ≤ c10Table.order.totalCount) ∧
    c10Table.orderKey ∉ (tableGet emptyTStore c10Table 0).map Prod.fst ∧
    tableGet emptyTStore c10Table 5 = [] ∧
    (rowGet ((tableRange emptyTStore c10Table none none).getD 0 [])
      c10Table.orderKey).isSome = true := by
  refine ⟨by decide, ?_, ?_, ?_⟩
  · exact (c10_get_omits_order_key_range_includes emptyTStore c10Table 0 none none
      (by decide)).1
  · exact (c10_get_omits_order_key_range_includes emptyTStore c10Table 5 none none
      (by decide)).2.1 (Or.inr (by decide))
  · exact (c10_get_omits_order_key_range_includes emptyTStore c10Table 0 none none
      (by decide)).2.2 _ (by decide)

end TreeVector

namespace TreeVector

/-- Monotonicity of the candidate-key accumulation. -/
theorem cand_fold_mono (okey : String) (existing : List String) :
    ∀ (row : Row) (acc : List String) (k : String), k ∈ acc →
      k ∈ row.foldl (fun acc2 p =>
        if p.1 == okey ∨ existing.contains p.1 ∨ acc2.contains p.1 then acc2
        else acc2 ++ [p.1]) acc := by
  intro row
  induction row with
  | nil => intro acc k hk; exact hk
  | cons p rest ih =>
    intro acc k hk
    rw [List.foldl_cons]
    split
    · exact ih acc k hk
    · exact ih _ k (List.mem_append_left _ hk)

/-- Walking a row that carries a key distinct from the order key and
from every pre-existing column key puts that key among the accumulated
candidates. -/
theorem cand_fold_insert (okey : String) (existing : List String) (k : String) (v : JSVal)
    (hko : ¬ (k == okey) = true) (hex : ¬ (existing.contains k) = true) :
    ∀ (r : Row) (acc : List String), ((k, v) ∈ r ∨ k ∈ acc) →
      k ∈ r.foldl (fun acc2 p =>
        if p.1 == okey ∨ existing.contains p.1 ∨ acc2.contains p.1 then acc2
        else acc2 ++ [p.1]) acc := by
  intro r
  induction r with
  | nil =>
    intro acc h
    rcases h with h | h
    · simp at h
    · exact h
  | cons p rest ih =>
    intro acc h
    rw [List.foldl_cons]
    rcases h with h | h
    · rcases List.mem_cons.mp h with heq | hrest
      · subst heq
        split
        · rename_i hcond
          rcases hcond with h1 | h2 | h3
          · exact absurd h1 hko
          · exact absurd h2 hex
          · exact cand_fold_mono okey existing rest acc k (by simpa using h3)
        · exact cand_fold_mono okey existing rest _ k
            (List.mem_append_right _ (by simp))
      · split
        · exact ih acc (Or.inl hrest)
        · exact ih _ (Or.inl hrest)
    · split
      · exact ih acc (Or.inr h)
      · exact ih _ (Or.inr (List.mem_append_left _ h))

/-- Monotonicity of the candidate-key accumulation over whole rows. -/
theorem cand_rows_mono (okey : String) (existing : List String) (k : String) :
    ∀ (rows : List Row) (acc : List String), k ∈ acc →
      k ∈ rows.foldl
        (fun acc row =>
          row.foldl (fun acc2 p =>
            if p.1 == okey ∨ existing.contains p.1 ∨ acc2.contains p.1 then acc2
            else acc2 ++ [p.1]) acc)
        acc := by
  intro rows
  induction rows with
  | nil => intro acc hk; exact hk
  | cons r rest ih =>
    intro acc hk
    rw [List.foldl_cons]
    exact ih _ (cand_fold_mono okey existing r acc k hk)

/-- A key carried by any row of a batch that is neither the order key
nor a pre-existing column key is a candidate new key. -/
theorem tblCandidates_mem (okey : String) (existing : List String)
    (rows1 rows2 : List Row) (r : Row) (k : String) (v : JSVal)
    (hmem : (k, v) ∈ r) (hko : ¬ (k == okey) = true)
    (hex : ¬ (existing.contains k) = true) :
    k ∈ tblCandidates okey existing (rows1 ++ r :: rows2) := by
  unfold tblCandidates
  rw [List.foldl_append, List.foldl_cons]
  exact cand_rows_mono okey existing k rows2 _
    (cand_fold_insert okey existing k v hko hex r _ (Or.inl hmem))

/-- The creation pass errors with the unsupported-column-type error when
the row carries an unsupported-typed value for a candidate key that no
earlier entry created. -/
theorem tblCreateNew_err (store : JStore TVal) (idx : Nat) (okey : String)
    (candidates : List String) (S C : Nat) (k : String) :
    ∀ (keys : List (String × JSVal)) (created : List (String × VType × FenState (Option JSVal))),
      (k, JSVal.other) ∈ keys →
      ¬ (k == okey) = true →
      candidates.contains k = true →
      (created.any (fun c => c.1 == k)) = false →
      (keys.map Prod.fst).Nodup →
      ∃ k', tblCreateNew store idx okey candidates S C keys created =
        .error (.unsupportedColumnType k') := by
  intro keys
  induction keys with
  | nil =>
    intro created hmem
    simp at hmem
  | cons p rest ih =>
    intro created hmem hko hcand hcr hnd
    obtain ⟨k1, raw⟩ := p
    rw [List.map_cons] at hnd
    have hndtail : (rest.map Prod.fst).Nodup := hnd.of_cons
    unfold tblCreateNew
    rcases List.mem_cons.mp hmem with heq | hrest
    · rcases Prod.mk.injEq .. ▸ heq with ⟨hk1, hraw⟩
      subst hk1
      subst hraw
      rw [if_neg ?_]
      · exact ⟨k, rfl⟩
      · intro hc
        rcases hc with h1 | h2 | h3
        · exact hko h1
        · exact h2 hcand
        · rw [hcr] at h3
          exact absurd h3 (by simp)
    · have hk1k : ¬ k1 = k := by
        intro heq
        subst heq
        have : k1 ∈ rest.map Prod.fst := List.mem_map_of_mem Prod.fst hrest
        exact (List.nodup_cons.mp hnd).1 this
      split
      · exact ih created hrest hko hcand hcr hndtail
      · cases raw with
        | jnull => exact ih created hrest hko hcand hcr hndtail
        | num n =>
          refine ih _ hrest hko hcand ?_ hndtail
          rw [List.any_append, hcr]
          simp [hk1k]
        | str s =>
          refine ih _ hrest hko hcand ?_ hndtail
          rw [List.any_append, hcr]
          simp [hk1k]
        | other => exact ⟨k1, rfl⟩

/-- `tblOrderInserts` succeeds whenever every row carries a numeric
order value, returning one global position per row. -/
theorem tblOrderInserts_ok (store : JStore TVal) (okey : String) :
    ∀ (rows : List Row) (ord : FenState Int),
      (∀ p ∈ rows, ∃ n, rowGet p okey = some (JSVal.num n)) →
      ∃ ord' idxs, tblOrderInserts store ord rows okey = .ok (ord', idxs) ∧
        idxs.length = rows.length := by
  intro rows
  induction rows with
  | nil => intro ord _; exact ⟨ord, [], rfl, rfl⟩
  | cons row rest ih =>
    intro ord h
    obtain ⟨n, hn⟩ := h row (List.mem_cons_self row rest)
    obtain ⟨ord', idxs, heq, hlen⟩ := ih (oInsert cdOrd store ord n).1
      (fun p hp => h p (List.mem_cons_of_mem row hp))
    refine ⟨ord', (oInsert cdOrd store ord n).2 :: idxs, ?_, by simp [hlen]⟩
    unfold tblOrderInserts
    rw [hn]
    dsimp only
    rw [heq]

/-- `insertManyAt` succeeds on argument lists of equal length (the
length check is its only error). -/
theorem insertManyAt_ok (cd : Codec α V) (store : JStore V) (st : FenState α)
    (indexes : List Int) (values : List α) (hlen : indexes.length = values.length) :
    ∃ st', insertManyAt cd store st indexes values = .ok st' := by
  unfold insertManyAt
  rw [if_neg (fun h => h hlen)]
  rcases indexes with _ | ⟨i, ir⟩
  · rcases values with _ | ⟨v, vr⟩
    · exact ⟨st, rfl⟩
    · simp at hlen
  · rcases values with _ | ⟨v, vr⟩
    · simp at hlen
    · rcases ir with _ | ⟨i2, ir2⟩
      · rcases vr with _ | ⟨v2, vr2⟩
        · exact ⟨_, rfl⟩
        · simp at hlen
      · rcases vr with _ | ⟨v2, vr2⟩
        · simp at hlen
        · dsimp only
          split
          · exact ⟨_, rfl⟩
          · exact ⟨_, rfl⟩

/-- Length of the index list after the element-wise `Nat`-to-`Int`
coercion `Table.insert` applies before `insertManyAt`. -/
theorem lenNatInt (idxs : List Nat) :
    (idxs.map (fun i => (i : Int))).length = idxs.length := by
  rw [List.length_map]
  show (idxs.flatMap (fun a => [(a : Int)])).length = idxs.length
  induction idxs with
  | nil => rfl
  | cons a l ih =>
    rw [List.flatMap_cons, List.length_append, ih]
    simp only [List.length_cons, List.length_singleton, List.length_nil]
    omega

/-- The bulk pass over pre-existing columns succeeds whenever the batch
produced one order position per row. -/
theorem tblPreExisting_ok (store : JStore TVal) (rows : List Row) (idxs : List Nat)
    (hlen : rows.length = idxs.length) :
    ∀ cols, ∃ pre', tblPreExisting store rows idxs cols = .ok pre' := by
  intro cols
  induction cols with
  | nil => exact ⟨[], rfl⟩
  | cons c rest ih =>
    obtain ⟨k, vt, col⟩ := c
    obtain ⟨col', hcol⟩ := insertManyAt_ok cdCol store col (idxs.map (fun i => (i : Int)))
      (rows.map (fun row => rowColVal row k))
      (by rw [lenNatInt, List.length_map, hlen])
    obtain ⟨rest', hrest⟩ := ih
    refine ⟨(k, vt, col') :: rest', ?_⟩
    unfold tblPreExisting
    dsimp only
    rw [hcol]
    dsimp only
    rw [hrest]

/-- Padding already-created columns does not change which keys are
created. -/
theorem tblPadCreated_any (store : JStore TVal) (row : Row) (idx : Nat) (k : String) :
    ∀ created, ((tblPadCreated store row idx created).any (fun c => c.1 == k)) =
      created.any (fun c => c.1 == k) := by
  intro created
  induction created with
  | nil => rfl
  | cons c rest ih =>
    obtain ⟨k1, vt, col⟩ := c
    unfold tblPadCreated
    rw [List.any_cons, List.any_cons, ih]

/-- The only error the creation pass raises is the
unsupported-column-type error. -/
theorem tblCreateNew_shape (store : JStore TVal) (idx : Nat) (okey : String)
    (candidates : List String) (S C : Nat) :
    ∀ (keys : List (String × JSVal))
      (created : List (String × VType × FenState (Option JSVal))) (e : TblErr),
      tblCreateNew store idx okey candidates S C keys created = .error e →
      ∃ k', e = .unsupportedColumnType k' := by
  intro keys
  induction keys with
  | nil =>
    intro created e h
    unfold tblCreateNew at h
    exact Except.noConfusion h
  | cons p rest ih =>
    intro created e h
    obtain ⟨k1, raw⟩ := p
    unfold tblCreateNew at h
    split at h
    · exact ih created e h
    · cases raw with
      | jnull => exact ih created e h
      | num n => exact ih _ e h
      | str s => exact ih _ e h
      | other =>
        injection h with h
        exact ⟨k1, h.symm⟩

/-- A key whose values in the processed row are all `null` or
unsupported is never created by the creation pass (an unsupported value
either errors or is skipped, never bucketed). -/
theorem tblCreateNew_no_create (store : JStore TVal) (idx : Nat) (okey : String)
    (candidates : List String) (S C : Nat) (k : String) :
    ∀ (keys : List (String × JSVal))
      (created created' : List (String × VType × FenState (Option JSVal))),
      (∀ v, (k, v) ∈ keys → v = JSVal.jnull ∨ v = JSVal.other) →
      (created.any (fun c => c.1 == k)) = false →
      tblCreateNew store idx okey candidates S C keys created = .ok created' →
      (created'.any (fun c => c.1 == k)) = false := by
  intro keys
  induction keys with
  | nil =>
    intro created created' _ hcr h
    unfold tblCreateNew at h
    injection h with h
    rw [← h]
    exact hcr
  | cons p rest ih =>
    intro created created' hv hcr h
    obtain ⟨k1, raw⟩ := p
    unfold tblCreateNew at h
    have hvrest : ∀ v, (k, v) ∈ rest → v = JSVal.jnull ∨ v = JSVal.other :=
      fun v hm => hv v (List.mem_cons_of_mem _ hm)
    split at h
    · exact ih created created' hvrest hcr h
    · cases raw with
      | jnull => exact ih created created' hvrest hcr h
      | num n =>
        have hk1 : (k1 == k) = false := by
          rw [beq_eq_false_iff_ne]
          intro heq
          subst heq
          rcases hv (JSVal.num n) (List.mem_cons_self _ _) with h' | h' <;> simp at h'
        refine ih _ created' hvrest ?_ h
        rw [List.any_append, hcr]
        simp [hk1]
      | str s =>
        have hk1 : (k1 == k) = false := by
          rw [beq_eq_false_iff_ne]
          intro heq
          subst heq
          rcases hv (JSVal.str s) (List.mem_cons_self _ _) with h' | h' <;> simp at h'
        refine ih _ created' hvrest ?_ h
        rw [List.any_append, hcr]
        simp [hk1]
      | other => exact Except.noConfusion h

/-- The per-row loop errors with the unsupported-column-type error when
some row carries an unsupported-typed value for a candidate key that no
earlier row's values could have created. -/
theorem tblRowLoop_err (store : JStore TVal) (okey : String) (cands : List String)
    (S C : Nat) (k : String) (r : Row) (idx : Nat)
    (hcand : cands.contains k = true) (hko : ¬ (k == okey) = true)
    (hmem : (k, JSVal.other) ∈ r) (hnd : (r.map Prod.fst).Nodup) :
    ∀ (prefPairs suffPairs : List (Row × Nat))
      (created : List (String × VType × FenState (Option JSVal))),
      (∀ q ∈ prefPairs, ∀ v, (k, v) ∈ q.1 → v = JSVal.jnull ∨ v = JSVal.other) →
      (created.any (fun c => c.1 == k)) = false →
      ∃ k', tblRowLoop store okey cands S C (prefPairs ++ (r, idx) :: suffPairs) created =
        .error (.unsupportedColumnType k') := by
  intro prefPairs
  induction prefPairs with
  | nil =>
    intro suffPairs created _ hcr
    rw [List.nil_append]
    obtain ⟨k', herr⟩ := tblCreateNew_err store idx okey cands S C k r
      (tblPadCreated store r idx created) hmem hko hcand
      ((tblPadCreated_any store r idx k created).trans hcr) hnd
    refine ⟨k', ?_⟩
    unfold tblRowLoop
    dsimp only
    rw [herr]
  | cons q rest ih =>
    intro suffPairs created hpf hcr
    obtain ⟨p, i⟩ := q
    have hp1 : ∀ v, (k, v) ∈ p → v = JSVal.jnull ∨ v = JSVal.other :=
      fun v hv => hpf (p, i) (List.mem_cons_self _ _) v hv
    have hrest : ∀ q ∈ rest, ∀ v, (k, v) ∈ q.1 → v = JSVal.jnull ∨ v = JSVal.other :=
      fun q hq => hpf q (List.mem_cons_of_mem _ hq)
    rw [List.cons_append]
    have hc1 : ((tblPadCreated store p i created).any (fun c => c.1 == k)) = false :=
      (tblPadCreated_any store p i k created).trans hcr
    rcases htc : tblCreateNew store i okey cands S C p (tblPadCreated store p i created)
      with e | created2
    · obtain ⟨k', hke⟩ := tblCreateNew_shape store i okey cands S C p
        (tblPadCreated store p i created) e htc
      refine ⟨k', ?_⟩
      unfold tblRowLoop
      dsimp only
      rw [htc]
      subst hke
      rfl
    · obtain ⟨k', hloop⟩ := ih suffPairs created2 hrest
        (tblCreateNew_no_create store i okey cands S C k p
          (tblPadCreated store p i created) created2 hp1 hc1 htc)
      refine ⟨k', ?_⟩
      unfold tblRowLoop
      dsimp only
      rw [htc]
      exact hloop

end TreeVector

namespace TreeVector

/-- C9 (amended): `Table.insert` raises the unsupported-column-type
error whenever some row carries, for a key that is neither the order
key nor a pre-existing typed column, a value of unsupported type that
is the column's first concrete value in the batch (every earlier row's
value for that key being absent, `null` or itself unsupported) — on any
table, for any batch, provided every row carries a numeric order value
and the erroring row's keys are duplicate-free (a JS object's are).
The original claim's "regardless of whether that column already exists"
half is refuted by the counterexample theorem: values of unsupported
type written to pre-existing typed columns are accepted unchecked. -/
theorem c9_new_column_unsupported_type_errors (store : JStore TVal) (t : TableState)
    (rows1 rows2 : List Row) (r : Row) (k : String)
    (hord : ∀ p ∈ rows1 ++ r :: rows2, ∃ n, rowGet p t.orderKey = some (JSVal.num n))
    (hmem : (k, JSVal.other) ∈ r)
    (hko : ¬ (k == t.orderKey) = true)
    (hex : ∀ c ∈ t.cols, ¬ c.1 = k)
    (hpf : ∀ p ∈ rows1, ∀ v, (k, v) ∈ p → v = JSVal.jnull ∨ v = JSVal.other)
    (hnd : (r.map Prod.fst).Nodup) :
    ∃ k', tableInsert store t (rows1 ++ r :: rows2) =
      .error (.unsupportedColumnType k') := by
  obtain ⟨ord', idxs, hoi, hlen⟩ := tblOrderInserts_ok store t.orderKey
    (rows1 ++ r :: rows2) t.order hord
  obtain ⟨pre', hpre⟩ := tblPreExisting_ok store (rows1 ++ r :: rows2) idxs hlen.symm
    (t.cols.filter (fun c => ¬(c.1 == t.orderKey)))
  have hexf : ¬ ((((t.cols.filter (fun c => ¬(c.1 == t.orderKey))).map (·.1))).contains k)
      = true := by
    intro hc
    obtain ⟨c, hcf, hck⟩ := List.mem_map.mp (List.mem_of_elem_eq_true hc)
    exact hex c (List.mem_of_mem_filter hcf) hck
  have hcand : ((tblCandidates t.orderKey
      ((t.cols.filter (fun c => ¬(c.1 == t.orderKey))).map (·.1))
      (rows1 ++ r :: rows2)).contains k) = true :=
    List.elem_eq_true_of_mem
      (tblCandidates_mem t.orderKey _ rows1 rows2 r k JSVal.other hmem hko hexf)
  have hlen' : idxs.length = rows1.length + (rows2.length + 1) := by
    rw [hlen, List.length_append, List.length_cons]
  obtain ⟨j, rest', hdrop⟩ : ∃ j rest', idxs.drop rows1.length = j :: rest' := by
    rcases hd : idxs.drop rows1.length with _ | ⟨j, rest'⟩
    · exfalso
      have h0 := congrArg List.length hd
      rw [List.length_drop, hlen', List.length_nil] at h0
      omega
    · exact ⟨j, rest', rfl⟩
  have hzip : (rows1 ++ r :: rows2).zip idxs =
      rows1.zip (idxs.take rows1.length) ++ (r, j) :: rows2.zip rest' := by
    conv_lhs => rw [← List.take_append_drop rows1.length idxs, hdrop]
    rw [List.zip_append (by rw [List.length_take]; omega), List.zip_cons_cons]
  have hpref : ∀ q ∈ rows1.zip (idxs.take rows1.length), ∀ v, (k, v) ∈ q.1 →
      v = JSVal.jnull ∨ v = JSVal.other := by
    intro q hq v hv
    obtain ⟨a, b⟩ := q
    exact hpf a (List.of_mem_zip hq).1 v hv
  obtain ⟨k', hloop⟩ := tblRowLoop_err store t.orderKey
    (tblCandidates t.orderKey ((t.cols.filter (fun c => ¬(c.1 == t.orderKey))).map (·.1))
      (rows1 ++ r :: rows2)) t.defaultSegmentCount t.defaultChunkCount k r j
    hcand hko hmem hnd (rows1.zip (idxs.take rows1.length)) (rows2.zip rest') [] hpref rfl
  refine ⟨k', ?_⟩
  unfold tableInsert
  rw [if_neg (by simp)]
  rw [hoi]
  dsimp only
  rw [hpre]
  dsimp only
  rw [hzip, hloop]

/-- Concrete instance of the amended C9 theorem: a three-row batch on a
table that already has a typed `name` column; the first row carries
`null` for the new `flag` column, the second row's `flag` value is of
unsupported type, so the whole insert errors. -/
theorem c9_new_column_unsupported_type_errors_witness :
    (("flag", JSVal.other) ∈ ([("id", JSVal.num 3), ("flag", JSVal.other)] : Row)) ∧
    ¬ (("flag" == c10Table.orderKey) = true) ∧
    (∀ c ∈ c10Table.cols, ¬ c.1 = "flag") ∧
    ((([("id", JSVal.num 3), ("flag", JSVal.other)] : Row).map Prod.fst).Nodup) ∧
    ∃ k', tableInsert emptyTStore c10Table
      [[("id", JSVal.num 2), ("flag", JSVal.jnull)],
       [("id", JSVal.num 3), ("flag", JSVal.other)],
       [("id", JSVal.num 4)]] = .error (.unsupportedColumnType k') :=
  ⟨by decide, by decide, by decide, by decide,
    c9_new_column_unsupported_type_errors emptyTStore c10Table
      [[("id", JSVal.num 2), ("flag", JSVal.jnull)]]
      [[("id", JSVal.num 4)]]
      [("id", JSVal.num 3), ("flag", JSVal.other)] "flag"
      (by
        intro p hp
        rcases List.mem_append.mp hp with hp | hp
        · rw [List.mem_singleton] at hp
          subst hp
          exact ⟨2, by decide⟩
        · rcases List.mem_cons.mp hp with hp | hp
          · subst hp
            exact ⟨3, by decide⟩
          · rw [List.mem_singleton] at hp
            subst hp
            exact ⟨4, by decide⟩)
      (by decide) (by decide) (by decide)
      (by
        intro p hp v hv
        rw [List.mem_singleton] at hp
        subst hp
        simp at hv
        exact Or.inl hv)
      (by decide)⟩

end TreeVector
